import Mathlib

/-!
Verification of the graphql-mcp server core (`src/graphql-mcp-server.ts`)
against its natural-language specification.

The TypeScript source is shallowly embedded: GraphQL schema metadata is a
first-order structure, JavaScript runtime values are the inductive `JSValue`,
and each source function becomes an executable Lean definition with the same
branch structure.  JavaScript numbers are modelled as integers: no claim in
scope depends on fractional values, `parseInt`/`parseFloat` are modelled up to
their integer part, and `NaN` is a distinct value.
-/

namespace GraphQLMCP

/-- GraphQL type references as they appear in a schema: a named base type
possibly wrapped in List / NonNull wrappers (mirrors `GraphQLType`). -/
inductive TypeRef
  | named (name : String)
  | list (inner : TypeRef)
  | nonNull (inner : TypeRef)
deriving DecidableEq, Repr

/-- Mirrors the source `getNamedType`: strip all List/NonNull wrappers and
return the base type name. -/
def getNamedType : TypeRef → String
  | .named n => n
  | .list t => getNamedType t
  | .nonNull t => getNamedType t

/-- Mirrors `isNonNullType` applied at the top level of a type reference. -/
def TypeRef.isNonNull : TypeRef → Bool
  | .nonNull _ => true
  | _ => false

/-- GraphQL type rendering (`type.toString()` in graphql-js). -/
def TypeRef.render : TypeRef → String
  | .named n => n
  | .list t => "[" ++ t.render ++ "]"
  | .nonNull t => t.render ++ "!"

/-- Classification of a base type name, mirroring the `isScalarType` /
`isEnumType` / `isInputObjectType` / `isObjectType` predicates. -/
inductive TypeKind
  | scalar
  | enum
  | inputObject
  | object
  | other
deriving DecidableEq, Repr

/-- A declared argument of a schema field (`GraphQLArgument`). -/
structure GqlArg where
  name : String
  type : TypeRef
  description : Option String
deriving DecidableEq, Repr

/-- A field of an object type (`GraphQLField`). -/
structure GqlField where
  name : String
  args : List GqlArg
  type : TypeRef
  description : Option String
deriving DecidableEq, Repr

/-- An object type definition with its fields. -/
structure ObjectDef where
  name : String
  fields : List GqlField
deriving DecidableEq, Repr

/-- The parsed remote schema: query/mutation root types, object type
definitions, a base-type classification table and enum value lists.  This is
the shallow embedding of the `GraphQLSchema` data the server consults. -/
structure GqlSchema where
  queryType : Option ObjectDef
  mutationType : Option ObjectDef
  objects : List ObjectDef
  typeKinds : List (String × TypeKind)
  enumVals : List (String × List String)
deriving DecidableEq, Repr

/-- `isObjectType` for base names: look the object definition up. -/
def lookupObject (s : GqlSchema) (n : String) : Option ObjectDef :=
  s.objects.find? (fun od => od.name = n)

/-- Classification of a base type name within a schema, mirroring the
disjoint `isScalarType`/`isEnumType`/`isInputObjectType`/`isObjectType`
predicates: a name is an object exactly when an object definition exists for
it, otherwise the classification table decides. -/
def kindOf (s : GqlSchema) (n : String) : TypeKind :=
  if (lookupObject s n).isSome then .object
  else (s.typeKinds.lookup n).getD .other

/-- Enum values of an enum type (`baseType.getValues().map(v => v.name)`). -/
def enumValuesOf (s : GqlSchema) (n : String) : List String :=
  (s.enumVals.lookup n).getD []

/-- JavaScript runtime values, as far as the server manipulates them.
Numbers are modelled as integers, with `nan` a separate value. -/
inductive JSValue
  | undef
  | null
  | bool (b : Bool)
  | num (n : Int)
  | nan
  | str (s : String)
  | arr (elems : List JSValue)
  | obj (entries : List (String × JSValue))
deriving Repr

/-- JavaScript truthiness (`Boolean(v)`): `undefined`, `null`, `false`, `0`,
`NaN` and the empty string are falsy; everything else — including any
non-empty string and any object or array — is truthy. -/
def truthy : JSValue → Bool
  | .undef => false
  | .null => false
  | .bool b => b
  | .num n => n != 0
  | .nan => false
  | .str s => s != ""
  | .arr _ => true
  | .obj _ => true

/-- JavaScript `String(v)` conversion.  Array elements are joined with commas
with `null`/`undefined` elements rendered empty; plain objects render as
`[object Object]`. -/
def jsString : JSValue → String
  | .undef => "undefined"
  | .null => "null"
  | .bool b => if b then "true" else "false"
  | .num n => toString n
  | .nan => "NaN"
  | .str s => s
  | .arr xs =>
      String.intercalate "," (xs.attach.map (fun x =>
        if x.1 matches .null | .undef then "" else jsString x.1))
  | .obj _ => "[object Object]"
decreasing_by
  have h := List.sizeOf_lt_of_mem x.2
  simp_wf
  omega

/-- Leading decimal digits of a character list, as an accumulating parse. -/
def takeDigits : List Char → Int → Bool → (Int × Bool)
  | [], acc, seen => (acc, seen)
  | c :: cs, acc, seen =>
      if c.isDigit then
        takeDigits cs (acc * 10 + (c.toNat - '0'.toNat : Nat)) true
      else
        (acc, seen)

/-- JavaScript `parseInt(v, 10)`: stringify, trim leading whitespace, read an
optional sign and leading decimal digits; no digits means `NaN`. -/
def jsParseInt (v : JSValue) : JSValue :=
  let cs := (jsString v).toList.dropWhile (fun c => c.isWhitespace)
  let (sign, cs') :=
    match cs with
    | '-' :: rest => ((-1 : Int), rest)
    | '+' :: rest => ((1 : Int), rest)
    | rest => ((1 : Int), rest)
  let (n, seen) := takeDigits cs' 0 false
  if seen then .num (sign * n) else .nan

/-- JavaScript `parseFloat(v)` modelled up to the integer part of the number
(the fractional part is not representable in the integer number model and no
claim in scope depends on it). -/
def jsParseFloat (v : JSValue) : JSValue :=
  jsParseInt v

/-- Whether a value is JavaScript `null` or `undefined`. -/
def isNullish : JSValue → Bool
  | .null => true
  | .undef => true
  | _ => false

/-- Skip JSON whitespace. -/
def skipWs (cs : List Char) : List Char :=
  cs.dropWhile (fun c => c = ' ' ∨ c = '\n' ∨ c = '\t' ∨ c = '\r')

/-- Read a JSON string body up to the closing quote, handling `\"` and `\\`
escapes byte-for-byte and passing other escapes through. -/
def readJsonString : Nat → List Char → Option (String × List Char)
  | 0, _ => none
  | _ + 1, [] => none
  | _ + 1, '"' :: rest => some ("", rest)
  | fuel + 1, '\\' :: c :: rest =>
      match readJsonString fuel rest with
      | some (s, r) => some (String.mk (c :: s.toList), r)
      | none => none
  | fuel + 1, c :: rest =>
      match readJsonString fuel rest with
      | some (s, r) => some (String.mk (c :: s.toList), r)
      | none => none

mutual
/-- A small JSON parser modelling `JSON.parse` (fuelled recursive descent).
Numbers are read up to their integer part.  Only its success/failure and the
null-ness of its result matter to the claims in scope. -/
def parseJsonVal : Nat → List Char → Option (JSValue × List Char)
  | 0, _ => none
  | fuel + 1, cs =>
    match skipWs cs with
    | 'n' :: 'u' :: 'l' :: 'l' :: rest => some (.null, rest)
    | 't' :: 'r' :: 'u' :: 'e' :: rest => some (.bool true, rest)
    | 'f' :: 'a' :: 'l' :: 's' :: 'e' :: rest => some (.bool false, rest)
    | '"' :: rest =>
        match readJsonString (rest.length + 1) rest with
        | some (s, r) => some (.str s, r)
        | none => none
    | '\x7b' :: rest => parseJsonMembers fuel (skipWs rest) true
    | '[' :: rest => parseJsonElems fuel (skipWs rest) true
    | '-' :: rest =>
        let (n, seen) := takeDigits rest 0 false
        if seen then some (.num (-n), rest.dropWhile (fun c => c.isDigit)) else none
    | c :: rest =>
        if c.isDigit then
          let (n, seen) := takeDigits (c :: rest) 0 false
          if seen then some (.num n, (c :: rest).dropWhile (fun c => c.isDigit)) else none
        else none
    | [] => none

/-- Parse JSON object members after the opening brace (whitespace skipped);
`first` is whether no member has been read yet. -/
def parseJsonMembers : Nat → List Char → Bool → Option (JSValue × List Char)
  | 0, _, _ => none
  | _ + 1, '\x7d' :: rest, true => some (.obj [], rest)
  | fuel + 1, cs, first =>
    let cs1 := if first then cs else
      match skipWs cs with
      | ',' :: r => skipWs r
      | r => r
    match skipWs cs1 with
    | '"' :: rest =>
        match readJsonString (rest.length + 1) rest with
        | some (k, r1) =>
            match skipWs r1 with
            | ':' :: r2 =>
                match parseJsonVal fuel r2 with
                | some (v, r3) =>
                    match skipWs r3 with
                    | '\x7d' :: r4 => some (.obj [(k, v)], r4)
                    | ',' :: r4 =>
                        match parseJsonMembers fuel (skipWs r4) true with
                        | some (.obj kvs, r5) => some (.obj ((k, v) :: kvs), r5)
                        | _ => none
                    | _ => none
                | none => none
            | _ => none
        | none => none
    | _ => none

/-- Parse JSON array elements after the opening bracket (whitespace
skipped). -/
def parseJsonElems : Nat → List Char → Bool → Option (JSValue × List Char)
  | 0, _, _ => none
  | _ + 1, ']' :: rest, true => some (.arr [], rest)
  | fuel + 1, cs, _ =>
    match parseJsonVal fuel cs with
    | some (v, r1) =>
        match skipWs r1 with
        | ']' :: r2 => some (.arr [v], r2)
        | ',' :: r2 =>
            match parseJsonElems fuel (skipWs r2) false with
            | some (.arr vs, r3) => some (.arr (v :: vs), r3)
            | _ => none
        | _ => none
    | none => none
end

/-- `JSON.parse` on a whole string: parse one value and require only trailing
whitespace. -/
def jsonParse (s : String) : Option JSValue :=
  match parseJsonVal (s.length + 1) s.toList with
  | some (v, rest) => if skipWs rest = [] then some v else none
  | none => none

/-- The input-object branch of `processArguments`: an empty string becomes
`{}` when the argument is non-null and `null` otherwise; a string starting
with a brace is JSON-parsed with the same fallback on failure; anything else
passes through unchanged. -/
def coerceInputObject (argDef : GqlArg) (v : JSValue) : JSValue :=
  match v with
  | .str s =>
      if s = "" then
        if argDef.type.isNonNull then .obj [] else .null
      else if s.startsWith "\x7b" then
        match jsonParse s with
        | some parsed => parsed
        | none => if argDef.type.isNonNull then .obj [] else .null
      else .str s
  | w => w

/-- Per-argument coercion, mirroring the type dispatch inside
`processArguments`: input objects via `coerceInputObject`, enums via
`String(v)`, the `Int`/`Float`/`Boolean` scalars via `parseInt` /
`parseFloat` / `Boolean`, and everything else passed through. -/
def coerceArg (s : GqlSchema) (argDef : GqlArg) (v : JSValue) : JSValue :=
  let base := getNamedType argDef.type
  match kindOf s base with
  | .inputObject => coerceInputObject argDef v
  | .enum => .str (jsString v)
  | .scalar =>
      if base = "Int" then jsParseInt v
      else if base = "Float" then jsParseFloat v
      else if base = "Boolean" then .bool (truthy v)
      else v
  | _ => v

/-- The per-entry loop of `processArguments`: unknown argument names are
dropped, known ones are coerced, and a `null`/`undefined` result for an
argument whose declared type is not non-null is deleted from the output. -/
def processArgEntries (s : GqlSchema) (fieldArgs : List GqlArg) :
    List (String × JSValue) → List (String × JSValue)
  | [] => []
  | (n, v) :: rest =>
      match fieldArgs.find? (fun a => a.name = n) with
      | none => processArgEntries s fieldArgs rest
      | some argDef =>
          let cv := coerceArg s argDef v
          if isNullish cv ∧ ¬ argDef.type.isNonNull then
            processArgEntries s fieldArgs rest
          else
            (n, cv) :: processArgEntries s fieldArgs rest

/-- Mirrors `processArguments(args, fieldArgs, schema)`: absent caller
arguments give the empty map, otherwise each provided entry is processed in
order. -/
def processArguments (args : Option (List (String × JSValue)))
    (fieldArgs : List GqlArg) (s : GqlSchema) : List (String × JSValue) :=
  match args with
  | none => []
  | some entries => processArgEntries s fieldArgs entries

/-- JSON Schema property emitted for one tool argument. -/
structure PropDef where
  type : String
  description : String
  enumList : Option (List String)
deriving DecidableEq, Repr

/-- Mirrors `getJsonSchemaType`: map GraphQL scalar names to JSON Schema
type names, defaulting to `string`. -/
def getJsonSchemaType (graphqlType : String) : String :=
  (([("Int", "integer"), ("Float", "number"), ("String", "string"),
     ("Boolean", "boolean"), ("ID", "string")].lookup graphqlType).getD "string")

/-- The per-argument analysis shared by the query and mutation tool builders:
unwrap a top-level NonNull (marking the argument required), then a List with a
possible inner NonNull, classify the base type and build the JSON-Schema-like
property.  Returns the property and the required flag. -/
def buildArgProp (s : GqlSchema) (arg : GqlArg) : PropDef × Bool :=
  let (t1, isNN) :=
    match arg.type with
    | .nonNull t => (t, true)
    | t => (t, false)
  let t2 :=
    match t1 with
    | .list t =>
        match t with
        | .nonNull u => u
        | u => u
    | t => t
  let base := getNamedType t2
  let prop :=
    match kindOf s base with
    | .scalar =>
        { type := getJsonSchemaType base,
          description := arg.description.getD
            (arg.name ++ " parameter (" ++ base ++ ")"),
          enumList := none }
    | .enum =>
        { type := "string",
          description := arg.description.getD
            (arg.name ++ " parameter (" ++ base ++ ")"),
          enumList := some (enumValuesOf s base) }
    | .inputObject =>
        { type := "object",
          description := arg.name ++ " - Input type: " ++ base,
          enumList := none }
    | _ =>
        { type := "string",
          description := arg.description.getD (arg.name ++ " parameter"),
          enumList := none }
  (prop, isNN)

/-- An MCP tool definition (`MCPTool`), with the input schema flattened into
property and required lists. -/
structure MCPTool where
  name : String
  description : String
  properties : List (String × PropDef)
  required : List String
deriving DecidableEq, Repr

/-- The `toolNameMappings` side table: truncated external name to original
canonical (or `mutation_`-prefixed) name.  JavaScript object assignment is
modelled by cons-front insertion, so a later write shadows an earlier one. -/
def Registry := List (String × String)

/-- Look an external tool name up in the registry, defaulting to itself
(mirrors `toolNameMappings[name] || name`). -/
def resolveName (m : Registry) (n : String) : String :=
  (List.lookup n m).getD n

/-- Whether a field name passes a whitelist: no whitelist allows everything
(mirrors `WHITELISTED_QUERIES && !WHITELISTED_QUERIES.includes(name)`). -/
def allowedBy (wl : Option (List String)) (n : String) : Bool :=
  match wl with
  | none => true
  | some l => l.contains n

/-- JavaScript `substring(0, n)`, on the character-list model of strings
(tool names are ASCII, where UTF-16 code units and characters coincide). -/
def strTake (s : String) (n : Nat) : String :=
  String.mk (s.toList.take n)

/-- The external name of a query field: the canonical name truncated to 64
characters when longer. -/
def externalQueryName (fieldName : String) : String :=
  if fieldName.length > 64 then strTake fieldName 64 else fieldName

/-- The per-field loop of `getToolsFromSchema`, threading the registry the way
the source mutates the module-level `toolNameMappings`. -/
def queryToolsLoop (s : GqlSchema) (wl : Option (List String)) :
    List GqlField → Registry → List MCPTool × Registry
  | [], m => ([], m)
  | f :: rest, m =>
      if allowedBy wl f.name then
        let props := f.args.map (fun a => (a.name, (buildArgProp s a).1))
        let req := (f.args.filter (fun a => (buildArgProp s a).2)).map (fun a => a.name)
        let truncatedName := externalQueryName f.name
        let m' := if truncatedName ≠ f.name then (truncatedName, f.name) :: m else m
        let tool : MCPTool :=
          { name := truncatedName,
            description := f.description.getD ("GraphQL " ++ f.name ++ " query"),
            properties := props,
            required := req }
        let r := queryToolsLoop s wl rest m'
        (tool :: r.1, r.2)
      else queryToolsLoop s wl rest m

/-- Mirrors `getToolsFromSchema(schema)`: empty on a missing schema or query
root, otherwise one tool per whitelisted query field, recording truncations in
the name registry. -/
def getToolsFromSchema (wl : Option (List String)) (schema : Option GqlSchema)
    (m : Registry) : List MCPTool × Registry :=
  match schema with
  | none => ([], m)
  | some s =>
      match s.queryType with
      | none => ([], m)
      | some qt => queryToolsLoop s wl qt.fields m

/-- The external name of a mutation field: `mutation_` plus the canonical
name; when the whole exceeds 64 characters only the field-name portion is
truncated so the total is 64 and the literal `mutation_` is preserved. -/
def externalMutationName (fieldName : String) : String :=
  let fullName := "mutation_" ++ fieldName
  if fullName.length > 64 then
    "mutation_" ++ strTake fieldName (64 - ("mutation_").length)
  else fullName

/-- The per-field loop of `getToolsFromMutationType`. -/
def mutationToolsLoop (s : GqlSchema) (wl : Option (List String)) :
    List GqlField → Registry → List MCPTool × Registry
  | [], m => ([], m)
  | f :: rest, m =>
      if allowedBy wl f.name then
        let props := f.args.map (fun a => (a.name, (buildArgProp s a).1))
        let req := (f.args.filter (fun a => (buildArgProp s a).2)).map (fun a => a.name)
        let fullName := "mutation_" ++ f.name
        let truncatedName := externalMutationName f.name
        let m' := if fullName.length > 64 then (truncatedName, fullName) :: m else m
        let tool : MCPTool :=
          { name := truncatedName,
            description := f.description.getD ("GraphQL " ++ f.name ++ " mutation"),
            properties := props,
            required := req }
        let r := mutationToolsLoop s wl rest m'
        (tool :: r.1, r.2)
      else mutationToolsLoop s wl rest m

/-- Mirrors `getToolsFromMutationType(schema)`. -/
def getToolsFromMutationType (wl : Option (List String))
    (schema : Option GqlSchema) (m : Registry) : List MCPTool × Registry :=
  match schema with
  | none => ([], m)
  | some s =>
      match s.mutationType with
      | none => ([], m)
      | some mt => mutationToolsLoop s wl mt.fields m

/-- A planned selection: a scalar leaf name or a nested object selection
(the source's `FieldSelection`). -/
inductive FieldSelection
  | leaf (name : String)
  | node (name : String) (fields : List FieldSelection)
deriving Repr

mutual
/-- Mirrors `analyzeFields(type, schema, visitedTypes, depth)`.  The JavaScript
`Set` is mutated in place and therefore shared across sibling recursive calls;
this is modelled by returning the grown visited list and threading it through
the field loop. -/
def analyzeFields (s : GqlSchema) (t : ObjectDef) (visited : List String)
    (depth : Nat) : List FieldSelection × List String :=
  if visited.contains t.name ∨ depth > 2 then ([], visited)
  else analyzeFieldsLoop s t.fields (t.name :: visited) depth
termination_by (3 - depth, 1, 0)

/-- The field loop of `analyzeFields`: skip fields declaring arguments,
include scalar/enum fields as leaves, and expand object fields one level
(keeping at most the first three planned sub-fields) while `depth < 2`. -/
def analyzeFieldsLoop (s : GqlSchema) (fs : List GqlField)
    (visited : List String) (depth : Nat) : List FieldSelection × List String :=
  match fs with
  | [] => ([], visited)
  | f :: rest =>
      if f.args.length > 0 then analyzeFieldsLoop s rest visited depth
      else
        let base := getNamedType f.type
        match kindOf s base with
        | .scalar =>
            let r := analyzeFieldsLoop s rest visited depth
            (.leaf f.name :: r.1, r.2)
        | .enum =>
            let r := analyzeFieldsLoop s rest visited depth
            (.leaf f.name :: r.1, r.2)
        | .object =>
            if depth < 2 then
              match lookupObject s base with
              | some od =>
                  let nestedR := analyzeFields s od visited (depth + 1)
                  let r := analyzeFieldsLoop s rest nestedR.2 depth
                  if nestedR.1.length > 0 then
                    (.node f.name (nestedR.1.take 3) :: r.1, r.2)
                  else (r.1, r.2)
              | none => analyzeFieldsLoop s rest visited depth
            else analyzeFieldsLoop s rest visited depth
        | _ => analyzeFieldsLoop s rest visited depth
termination_by (3 - depth, 0, fs.length + 1)
end

mutual
/-- Mirrors `buildSelectionSet(fields, indent)`: leaves render as one indented
line, nested selections recurse with two more spaces of indent. -/
def buildSelectionSet (fields : List FieldSelection) (indent : String) : String :=
  match fields with
  | [] => ""
  | f :: rest => renderSelection f indent ++ buildSelectionSet rest indent

/-- One entry of `buildSelectionSet`'s loop. -/
def renderSelection (f : FieldSelection) (indent : String) : String :=
  match f with
  | .leaf n => indent ++ n ++ "\n"
  | .node n children =>
      indent ++ n ++ " \x7b\n" ++ buildSelectionSet children (indent ++ "  ")
        ++ "\n" ++ indent ++ "\x7d\n"
end

mutual
/-- Mirrors the `sanitizeValue` closure in the `tools/call` handler:
`undefined` and `null` become `null`, arrays and objects are walked
recursively, all other values pass through. -/
def sanitizeValue : JSValue → JSValue
  | .undef => .null
  | .null => .null
  | .arr xs => .arr (sanitizeList xs)
  | .obj kvs => .obj (sanitizeEntries kvs)
  | v => v

/-- Array walk of `sanitizeValue`. -/
def sanitizeList : List JSValue → List JSValue
  | [] => []
  | x :: xs => sanitizeValue x :: sanitizeList xs

/-- Object-entry walk of `sanitizeValue`. -/
def sanitizeEntries : List (String × JSValue) → List (String × JSValue)
  | [] => []
  | (k, v) :: kvs => (k, sanitizeValue v) :: sanitizeEntries kvs
end

/-- GraphQL tokens for the syntax check that `executeQuery` performs via
`parse(args.query)` before any network access. -/
inductive GToken
  | name (s : String)
  | intVal (s : String)
  | punct (c : Char)
deriving DecidableEq, Repr

/-- Start character of a GraphQL name. -/
def isNameStart (c : Char) : Bool :=
  c.isAlpha ∨ c = '_'

/-- Continuation character of a GraphQL name. -/
def isNameCont (c : Char) : Bool :=
  c.isAlphanum ∨ c = '_'

/-- GraphQL-insignificant characters (whitespace and commas). -/
def isGqlIgnored (c : Char) : Bool :=
  c = ' ' ∨ c = '\n' ∨ c = '\t' ∨ c = '\r' ∨ c = ','

/-- GraphQL punctuation characters appearing in generated documents. -/
def isGqlPunct (c : Char) : Bool :=
  c = '(' ∨ c = ')' ∨ c = '\x7b' ∨ c = '\x7d' ∨ c = ':' ∨ c = '$'
    ∨ c = '[' ∨ c = ']' ∨ c = '!'

/-- Tokenizer for the GraphQL document subset the assembler emits. -/
def gqlTokenize : Nat → List Char → Option (List GToken)
  | 0, _ => none
  | _ + 1, [] => some []
  | fuel + 1, c :: cs =>
      if isGqlIgnored c then gqlTokenize fuel cs
      else if isNameStart c then
        let nm := String.mk (c :: cs.takeWhile isNameCont)
        (gqlTokenize fuel (cs.dropWhile isNameCont)).map (fun ts => .name nm :: ts)
      else if c.isDigit ∨ c = '-' then
        let nv := String.mk (c :: cs.takeWhile Char.isDigit)
        (gqlTokenize fuel (cs.dropWhile Char.isDigit)).map (fun ts => .intVal nv :: ts)
      else if isGqlPunct c then
        (gqlTokenize fuel cs).map (fun ts => .punct c :: ts)
      else none

/-- Consume trailing `!` markers of a type reference. -/
def skipBangs (ts : List GToken) : List GToken :=
  ts.dropWhile (fun t => t = .punct '!')

/-- Consume one GraphQL type reference in a variable definition. -/
def parseTypeTok : Nat → List GToken → Option (List GToken)
  | 0, _ => none
  | _ + 1, .name _ :: ts => some (skipBangs ts)
  | fuel + 1, .punct '[' :: ts =>
      match parseTypeTok fuel ts with
      | some (.punct ']' :: ts') => some (skipBangs ts')
      | _ => none
  | _, _ => none

/-- Consume one GraphQL value (variable, integer or name literal). -/
def parseValueTok : List GToken → Option (List GToken)
  | .punct '$' :: .name _ :: ts => some ts
  | .intVal _ :: ts => some ts
  | .name _ :: ts => some ts
  | _ => none

/-- Consume `name: value` argument items up to the closing parenthesis. -/
def parseArgItems : Nat → List GToken → Option (List GToken)
  | 0, _ => none
  | fuel + 1, .name _ :: .punct ':' :: ts =>
      match parseValueTok ts with
      | some (.punct ')' :: r) => some r
      | some ts' => parseArgItems fuel ts'
      | none => none
  | _, _ => none

/-- Consume `$name: Type` variable-definition items up to the closing
parenthesis. -/
def parseVarDefItems : Nat → List GToken → Option (List GToken)
  | 0, _ => none
  | fuel + 1, .punct '$' :: .name _ :: .punct ':' :: ts =>
      match parseTypeTok fuel ts with
      | some (.punct ')' :: r) => some r
      | some ts' => parseVarDefItems fuel ts'
      | none => none
  | _, _ => none

mutual
/-- Consume a selection set: an opening brace, at least one selection, and a
closing brace. -/
def parseSelectionSetTok : Nat → List GToken → Option (List GToken)
  | 0, _ => none
  | fuel + 1, .punct '\x7b' :: ts => parseSelectionsTok fuel ts false
  | _, _ => none

/-- Consume selections until the closing brace; `seen` records whether at
least one selection has been read (GraphQL forbids empty selection sets). -/
def parseSelectionsTok : Nat → List GToken → Bool → Option (List GToken)
  | 0, _, _ => none
  | _ + 1, .punct '\x7d' :: ts, true => some ts
  | fuel + 1, .name _ :: ts, _ =>
      let afterArgs :=
        match ts with
        | .punct '(' :: r => parseArgItems fuel r
        | _ => some ts
      match afterArgs with
      | some ts1 =>
          match ts1 with
          | .punct '\x7b' :: _ =>
              match parseSelectionSetTok fuel ts1 with
              | some ts2 => parseSelectionsTok fuel ts2 true
              | none => none
          | _ => parseSelectionsTok fuel ts1 true
      | none => none
  | _, _, _ => none
end

/-- Consume one operation definition: `query`/`mutation` with optional name
and variable definitions, or a bare selection set. -/
def parseOperationTok (fuel : Nat) (ts : List GToken) : Option (List GToken) :=
  match ts with
  | .name "query" :: rest => parseOperationRest fuel rest
  | .name "mutation" :: rest => parseOperationRest fuel rest
  | .punct '\x7b' :: _ => parseSelectionSetTok fuel ts
  | _ => none
where
  parseOperationRest (fuel : Nat) (ts : List GToken) : Option (List GToken) :=
    let ts1 :=
      match ts with
      | .name _ :: r => r
      | r => r
    match ts1 with
    | .punct '(' :: r =>
        match parseVarDefItems fuel r with
        | some ts2 => parseSelectionSetTok fuel ts2
        | none => none
    | _ => parseSelectionSetTok fuel ts1

/-- Consume one or more operation definitions. -/
def parseDocumentTok : Nat → List GToken → Option (List GToken)
  | 0, _ => none
  | fuel + 1, ts =>
      match parseOperationTok (fuel + 1) ts with
      | some [] => some []
      | some rest => parseDocumentTok fuel rest
      | none => none

/-- Models the success of graphql-js `parse()` on the document subset the
assembler emits: tokenization succeeds and the tokens form a complete
document. -/
def gqlParseOk (s : String) : Bool :=
  match gqlTokenize (s.length + 1) s.toList with
  | some ts => (parseDocumentTok (ts.length + 1) ts).isSome
  | none => false

/-- The error taxonomy surfaced by tool execution, one constructor per local
failure path in `executeGraphQLTool` / `executeQuery`. -/
inductive ToolError
  | whitelistRejected (name : String)
  | schemaUnavailable
  | noQueryType
  | unknownField (name : String)
  | noEndpoint
  | invalidQuerySyntax
deriving DecidableEq, Repr

/-- A request handed to the transport: reaching this value means the local
checks all passed and a network call to the upstream endpoint is made. -/
structure NetRequest where
  query : String
  vars : List (String × JSValue)
deriving Repr

/-- The local (pre-network) part of `executeQuery`: reject a missing endpoint,
validate the document syntax, then hand the request to the transport. -/
def executeQueryLocal (endpoint : String) (q : String)
    (vars : List (String × JSValue)) : Except ToolError NetRequest :=
  if endpoint = "" then .error .noEndpoint
  else if gqlParseOk q then .ok { query := q, vars := vars }
  else .error .invalidQuerySyntax

/-- Whether `processedArgs[name] !== undefined` holds. -/
def lookupDefined (pa : List (String × JSValue)) (n : String) : Bool :=
  match pa.lookup n with
  | some .undef => false
  | some _ => true
  | none => false

/-- The query document template of `executeGraphQLTool`, byte-for-byte:
note that the source interpolates the external tool `name` both as the
operation name and as the selected field. -/
def assembleQueryDoc (name varDefs fieldArgsStr selectionSet : String) : String :=
  "\n        query " ++ name ++ "Query" ++
    (if fieldArgsStr ≠ "" then "(" ++ varDefs ++ ")" else "") ++
    " \x7b\n          " ++ name ++
    (if fieldArgsStr ≠ "" then "(" ++ fieldArgsStr ++ ")" else "") ++ " " ++
    (if selectionSet ≠ "" then "\x7b\n" ++ selectionSet ++ "  \x7d" else "") ++
    "\n        \x7d\n      "

/-- Mirrors `executeGraphQLTool(name, args)` up to the network boundary:
registry resolution, whitelist check, schema and query-root availability,
field lookup, argument processing, variable/field argument assembly, selection
planning, document assembly and the local part of `executeQuery`.  (The
`isListType(returnType)` branch of the source is dead — `getNamedType` has
already removed the wrappers — and is omitted.) -/
def executeGraphQLToolModel (endpoint : String) (wl : Option (List String))
    (m : Registry) (schema : Option GqlSchema) (name : String)
    (args : Option (List (String × JSValue))) : Except ToolError NetRequest :=
  let actualFieldName := resolveName m name
  if ¬ allowedBy wl actualFieldName then
    .error (.whitelistRejected actualFieldName)
  else
    match schema with
    | none => .error .schemaUnavailable
    | some s =>
        match s.queryType with
        | none => .error .noQueryType
        | some qt =>
            match qt.fields.find? (fun f => f.name = actualFieldName) with
            | none => .error (.unknownField actualFieldName)
            | some field =>
                let processedArgs := processArguments args field.args s
                let usedArgNames :=
                  (field.args.filter (fun a => lookupDefined processedArgs a.name)).map
                    (fun a => a.name)
                let varDefs := String.intercalate ", "
                  ((field.args.filter (fun a => usedArgNames.contains a.name)).map
                    (fun a => "$" ++ a.name ++ ": " ++ a.type.render))
                let fieldArgsStr := String.intercalate ", "
                  (usedArgNames.map (fun n => n ++ ": $" ++ n))
                let selectionSet :=
                  match lookupObject s (getNamedType field.type) with
                  | some od => buildSelectionSet (analyzeFields s od [] 0).1 "    "
                  | none => ""
                let q := assembleQueryDoc name varDefs fieldArgsStr selectionSet
                executeQueryLocal endpoint q processedArgs

/-- The schema cache state owned by the Schema Cache Manager: the module-level
`schemaCache`, `schemaCacheExpiry`, `schemaFetchInProgress` and
`toolNameMappings` variables. -/
structure CacheState where
  cache : Option GqlSchema
  expiry : Option Nat
  inProgress : Bool
  mappings : Registry

/-- The cache-validity test of `fetchSchema`:
`schemaCache && schemaCacheExpiry && now < schemaCacheExpiry`. -/
def cacheLiveAt (cache : Option GqlSchema) (expiry : Option Nat) (now : Nat) : Bool :=
  cache.isSome &&
    match expiry with
    | some e => decide (now < e)
    | none => false

/-- Mirrors one sequential call to `fetchSchema`, with the introspection
round trip abstracted as `outcome` (`some schema` on success, `none` on
failure).  When a fetch is already in progress the caller waits and then
returns the cache; sequentially this collapses to returning the cache. -/
def fetchSchemaStep (ttl : Nat) (st : CacheState) (now : Nat)
    (outcome : Option GqlSchema) : CacheState × Option GqlSchema :=
  if st.inProgress then (st, st.cache)
  else if cacheLiveAt st.cache st.expiry now then (st, st.cache)
  else
    match outcome with
    | some schema =>
        ({ cache := some schema, expiry := some (now + ttl),
           inProgress := false, mappings := [] }, some schema)
    | none => ({ st with inProgress := false }, none)

/-- The reply of the `tools/list` handler: a JSON-RPC result carrying tools,
or a JSON-RPC error. -/
inductive ToolsListReply
  | success (tools : List MCPTool)
  | rpcError (code : Int) (msg : String)
deriving Repr

/-- Mirrors the `tools/list` branch of the line handler: build the query and
mutation catalogs from whatever `fetchSchema` returned and reply with their
concatenation as a JSON-RPC result. -/
def handleToolsList (wlQ wlM : Option (List String)) (schema : Option GqlSchema)
    (m : Registry) : ToolsListReply × Registry :=
  let qr := getToolsFromSchema wlQ schema m
  let mr := getToolsFromMutationType wlM schema qr.2
  (.success (qr.1 ++ mr.1), mr.2)

/-- The phase a caller of `fetchSchema` is in, under the cooperative
(run-to-completion) scheduling of the Node event loop: `start` before the
call's first synchronous segment has run, `polling` inside the
50-millisecond wait loop, `awaitingNet` while this caller's own introspection
request is outstanding, and `done` with the returned snapshot. -/
inductive ThreadPhase
  | start
  | polling
  | awaitingNet
  | done (res : Option GqlSchema)
deriving DecidableEq, Repr

/-- Global state for concurrent `fetchSchema` callers: the cache fields plus
a count of introspection requests issued and the phase of every caller. -/
structure SysState where
  cache : Option GqlSchema
  expiry : Option Nat
  inProgress : Bool
  requests : Nat
  threads : List ThreadPhase
deriving DecidableEq, Repr

/-- One atomic synchronous segment of some caller, or the completion of the
outstanding introspection request.  JavaScript's event loop runs each such
segment to completion, so an interleaving is a list of these events. -/
inductive SchedEvent
  | entry (i : Nat)
  | poll (i : Nat)
  | complete (outcome : Option GqlSchema)
deriving DecidableEq, Repr

/-- Whether an event is the completion of the introspection request. -/
def SchedEvent.isComplete : SchedEvent → Bool
  | .complete _ => true
  | _ => false

/-- One event of the `fetchSchema` state machine, mirroring the source's
synchronous segments. `entry i`: caller `i` runs the head of `fetchSchema` —
if a fetch is in progress it enters the poll loop, else if the cache is live
it returns the cache, else it marks the fetch in progress and issues the
introspection request.  `poll i`: one iteration of caller `i`'s wait loop —
it returns `schemaCache` once `schemaFetchInProgress` is clear.  `complete`:
the outstanding request settles — on success the schema is cached with a
fresh expiry, on failure nothing is cached; either way the in-progress flag
is cleared (the source's `finally`) and the fetching caller returns. -/
def sysStep (ttl now : Nat) (st : SysState) (e : SchedEvent) : SysState :=
  match e with
  | .entry i =>
      match st.threads[i]? with
      | some .start =>
          if st.inProgress then
            { st with threads := st.threads.set i .polling }
          else if cacheLiveAt st.cache st.expiry now then
            { st with threads := st.threads.set i (.done st.cache) }
          else
            { st with inProgress := true, requests := st.requests + 1,
                      threads := st.threads.set i .awaitingNet }
      | _ => st
  | .poll i =>
      match st.threads[i]? with
      | some .polling =>
          if st.inProgress then st
          else { st with threads := st.threads.set i (.done st.cache) }
      | _ => st
  | .complete outcome =>
      if st.inProgress then
        match outcome with
        | some schema =>
            { cache := some schema, expiry := some (now + ttl),
              inProgress := false, requests := st.requests,
              threads := st.threads.map (fun p =>
                if p matches .awaitingNet then .done (some schema) else p) }
        | none =>
            { st with inProgress := false,
                      threads := st.threads.map (fun p =>
                        if p matches .awaitingNet then .done none else p) }
      else st

/-- Run a schedule of events from a state. -/
def runSched (ttl now : Nat) (st : SysState) (evs : List SchedEvent) : SysState :=
  evs.foldl (sysStep ttl now) st

/-- Cold start: nothing cached, no fetch in flight, `n` callers about to
invoke `fetchSchema`. -/
def initSys (n : Nat) : SysState :=
  { cache := none, expiry := none, inProgress := false, requests := 0,
    threads := List.replicate n .start }

/-- Invariant of the cold-start cooperative execution before the
introspection request completes: nothing is cached, the thread pool has `n`
entries, and either no fetch has started (no request issued, every caller
still at `start`) or exactly one request is in flight and every caller is at
`start`, `polling` or `awaitingNet`. -/
def PreInv (n : Nat) (st : SysState) : Prop :=
  st.cache = none ∧ st.expiry = none ∧ st.threads.length = n ∧
  ((st.inProgress = false ∧ st.requests = 0 ∧
      ∀ p ∈ st.threads, p = .start) ∨
   (st.inProgress = true ∧ st.requests = 1 ∧
      ∀ p ∈ st.threads, p = .start ∨ p = .polling ∨ p = .awaitingNet))

/-- Invariant after the introspection request completed with outcome `o`:
exactly one request was issued, the flag is clear, the cache holds exactly
the outcome, and every caller is still polling or done with that same
outcome. -/
def PostInv (n : Nat) (o : Option GqlSchema) (st : SysState) : Prop :=
  st.inProgress = false ∧ st.requests = 1 ∧ st.cache = o ∧
  st.threads.length = n ∧
  ∀ i, i < n → st.threads[i]? = some .polling ∨ st.threads[i]? = some (.done o)

mutual
/-- Depth measure of a planned selection: a leaf occupies one level, a nested
selection one level plus its children.  A selection list of measure `d` has
all of its fields at depth at most `d - 1`, counting the top-level entries
(the direct selections of the return type) as depth `0` — the same convention
as the source's `depth` counter. -/
def selDepth : FieldSelection → Nat
  | .leaf _ => 1
  | .node _ children => 1 + selDepthList children

/-- `selDepth` over a selection list (maximum). -/
def selDepthList : List FieldSelection → Nat
  | [] => 0
  | f :: rest => max (selDepth f) (selDepthList rest)
end

mutual
/-- Soundness of one planned selection against the schema: the named field
exists on the type, declares no arguments, and a nested selection recurses
into the field's object type. -/
def SelSound (s : GqlSchema) (t : ObjectDef) : FieldSelection → Prop
  | .leaf n => ∃ f ∈ t.fields, f.name = n ∧ f.args = []
  | .node n children =>
      ∃ f ∈ t.fields, f.name = n ∧ f.args = [] ∧
        ∃ od, lookupObject s (getNamedType f.type) = some od ∧
          SelSoundList s od children

/-- `SelSound` over a selection list. -/
def SelSoundList (s : GqlSchema) (t : ObjectDef) : List FieldSelection → Prop
  | [] => True
  | sel :: rest => SelSound s t sel ∧ SelSoundList s t rest
end

mutual
/-- Every nested selection in the tree keeps at most three sub-fields. -/
def SelNarrow : FieldSelection → Prop
  | .leaf _ => True
  | .node _ children => children.length ≤ 3 ∧ SelNarrowList children

/-- `SelNarrow` over a selection list. -/
def SelNarrowList : List FieldSelection → Prop
  | [] => True
  | sel :: rest => SelNarrow sel ∧ SelNarrowList rest
end

/-- Fixture: a required non-null `Int` argument `id`. -/
def fixGetUserArg : GqlArg :=
  { name := "id", type := .nonNull (.named "Int"), description := none }

/-- Fixture: the field `getUser(id: Int!): Int`. -/
def fixGetUserField : GqlField :=
  { name := "getUser", args := [fixGetUserArg], type := .named "Int",
    description := none }

/-- Fixture: the query root `type Query { getUser(id: Int!): Int }`. -/
def fixRequiredQt : ObjectDef :=
  { name := "Query", fields := [fixGetUserField] }

/-- Fixture: a schema whose query root is
`type Query { getUser(id: Int!): Int }` — a field with one required non-null
scalar argument. -/
def fixRequiredArgSchema : GqlSchema :=
  { queryType := some fixRequiredQt,
    mutationType := none, objects := [],
    typeKinds := [("Int", .scalar)], enumVals := [] }

/-- Fixture: a query root with three argument-free string fields `a`, `b`,
`c`. -/
def fixThreeQueryType : ObjectDef :=
  { name := "Query",
    fields := [{ name := "a", args := [], type := .named "String",
                 description := none },
               { name := "b", args := [], type := .named "String",
                 description := none },
               { name := "c", args := [], type := .named "String",
                 description := none }] }

/-- Fixture: a schema whose query root has three argument-free string fields
`a`, `b`, `c`. -/
def fixThreeFieldSchema : GqlSchema :=
  { queryType := some fixThreeQueryType,
    mutationType := none, objects := [],
    typeKinds := [("String", .scalar)], enumVals := [] }

/-- Fixture: a schema with only the `Boolean` scalar classified. -/
def fixBoolSchema : GqlSchema :=
  { queryType := none, mutationType := none, objects := [],
    typeKinds := [("Boolean", .scalar)], enumVals := [] }

/-- Fixture: an optional `Boolean` argument. -/
def fixBoolArg : GqlArg :=
  { name := "flag", type := .named "Boolean", description := none }

/-- Fixture: an optional `String` argument. -/
def fixStrArg : GqlArg :=
  { name := "label", type := .named "String", description := none }

/-- Fixture: a query field name of 70 characters. -/
def fixLongQueryName : String :=
  String.mk (List.replicate 70 'q')

/-- Fixture: a mutation field name of 60 characters. -/
def fixLongMutationName : String :=
  String.mk (List.replicate 60 'm')

/-- Fixture: a schema whose object graph nests four levels deep
(`A -> B -> C -> D`), with one scalar per level and one argument-taking
field on `A`. -/
def fixDeepSchema : GqlSchema :=
  { queryType := none, mutationType := none,
    objects :=
      [{ name := "A", fields :=
           [{ name := "b", args := [], type := .named "B", description := none },
            { name := "x", args := [], type := .named "Int", description := none },
            { name := "withArg",
              args := [{ name := "n", type := .named "Int", description := none }],
              type := .named "Int", description := none }] },
       { name := "B", fields :=
           [{ name := "c", args := [], type := .named "C", description := none },
            { name := "y", args := [], type := .named "Int", description := none }] },
       { name := "C", fields :=
           [{ name := "d", args := [], type := .named "D", description := none },
            { name := "z", args := [], type := .named "Int", description := none }] },
       { name := "D", fields :=
           [{ name := "w", args := [], type := .named "Int", description := none }] }],
    typeKinds := [("Int", .scalar)], enumVals := [] }

/-- Fixture: the root object `A` of the deep schema. -/
def fixDeepA : ObjectDef :=
  { name := "A", fields :=
      [{ name := "b", args := [], type := .named "B", description := none },
       { name := "x", args := [], type := .named "Int", description := none },
       { name := "withArg",
         args := [{ name := "n", type := .named "Int", description := none }],
         type := .named "Int", description := none }] }

/-- Fixture: a cache state holding an expired snapshot and no fetch in
flight. -/
def fixStaleState : CacheState :=
  { cache := some fixBoolSchema, expiry := some 5, inProgress := false,
    mappings := [] }

/-- Fixture: a system state holding an expired snapshot (expiry 5, before
`now = 10`), no fetch in flight, and two callers about to invoke
`fetchSchema`. -/
def fixStaleSys : SysState :=
  { cache := some fixBoolSchema, expiry := some 5, inProgress := false,
    requests := 0, threads := [.start, .start] }

/-- Fixture: an argument-free query field carrying the 70-character name. -/
def fixLongField : GqlField :=
  { name := fixLongQueryName, args := [], type := .named "Int",
    description := none }

/-- Fixture: a schema whose single query field has the 70-character name. -/
def fixLongNameSchema : GqlSchema :=
  { queryType := some { name := "Query", fields := [fixLongField] },
    mutationType := none, objects := [],
    typeKinds := [("Int", .scalar)], enumVals := [] }

mutual
/-- Whether `undefined` occurs anywhere inside a value. -/
def hasUndef : JSValue → Bool
  | .undef => true
  | .arr xs => hasUndefList xs
  | .obj kvs => hasUndefEntries kvs
  | _ => false

/-- `hasUndef` over array elements. -/
def hasUndefList : List JSValue → Bool
  | [] => false
  | x :: xs => hasUndef x || hasUndefList xs

/-- `hasUndef` over object entries. -/
def hasUndefEntries : List (String × JSValue) → Bool
  | [] => false
  | (_, v) :: kvs => hasUndef v || hasUndefEntries kvs
end

mutual
/-- After sanitizing, no `undefined` occurs anywhere in a value. -/
theorem hasUndef_sanitizeValue : ∀ v, hasUndef (sanitizeValue v) = false
  | .undef => rfl
  | .null => rfl
  | .bool _ => rfl
  | .num _ => rfl
  | .nan => rfl
  | .str _ => rfl
  | .arr xs => by
      rw [sanitizeValue, hasUndef]
      exact hasUndefList_sanitizeList xs
  | .obj kvs => by
      rw [sanitizeValue, hasUndef]
      exact hasUndefEntries_sanitizeEntries kvs

/-- After sanitizing, no `undefined` occurs in an array. -/
theorem hasUndefList_sanitizeList : ∀ xs, hasUndefList (sanitizeList xs) = false
  | [] => rfl
  | x :: xs => by
      rw [sanitizeList, hasUndefList, hasUndef_sanitizeValue x,
        hasUndefList_sanitizeList xs]
      rfl

/-- After sanitizing, no `undefined` occurs in an object's entries. -/
theorem hasUndefEntries_sanitizeEntries :
    ∀ kvs, hasUndefEntries (sanitizeEntries kvs) = false
  | [] => rfl
  | (_, v) :: kvs => by
      rw [sanitizeEntries, hasUndefEntries, hasUndef_sanitizeValue v,
        hasUndefEntries_sanitizeEntries kvs]
      rfl
end

/-- Sanitizing preserves array length. -/
theorem sanitizeList_length : ∀ xs : List JSValue,
    (sanitizeList xs).length = xs.length
  | [] => rfl
  | _ :: xs => by rw [sanitizeList, List.length_cons, List.length_cons,
      sanitizeList_length xs]

/-- Sanitizing preserves object keys. -/
theorem sanitizeEntries_keys : ∀ kvs : List (String × JSValue),
    (sanitizeEntries kvs).map Prod.fst = kvs.map Prod.fst
  | [] => rfl
  | (_, _) :: kvs => by
      rw [sanitizeEntries, List.map_cons, List.map_cons, sanitizeEntries_keys kvs]

/-- C8: the recursive sanitize pass applied before wrapping a successful
`tools/call` result replaces every `undefined` (and `null`) occurrence with
`null`, walks arrays and objects recursively preserving length and keys,
passes all other primitives through unchanged, and its output contains no
`undefined` anywhere. -/
theorem sanitize_spec :
    (∀ v, hasUndef (sanitizeValue v) = false) ∧
    sanitizeValue .undef = .null ∧
    sanitizeValue .null = .null ∧
    (∀ b, sanitizeValue (.bool b) = .bool b) ∧
    (∀ n, sanitizeValue (.num n) = .num n) ∧
    sanitizeValue .nan = .nan ∧
    (∀ s, sanitizeValue (.str s) = .str s) ∧
    (∀ xs, sanitizeValue (.arr xs) = .arr (sanitizeList xs) ∧
      (sanitizeList xs).length = xs.length) ∧
    (∀ kvs, sanitizeValue (.obj kvs) = .obj (sanitizeEntries kvs) ∧
      (sanitizeEntries kvs).map Prod.fst = kvs.map Prod.fst) :=
  ⟨hasUndef_sanitizeValue, rfl, rfl, fun _ => rfl, fun _ => rfl, rfl,
    fun _ => rfl,
    fun xs => ⟨rfl, sanitizeList_length xs⟩,
    fun kvs => ⟨rfl, sanitizeEntries_keys kvs⟩⟩

/-- C9: when the schema fetch fails (`fetchSchema` returned `null`), the
`tools/list` handler replies with a successful JSON-RPC result whose tools
array is empty — never with a JSON-RPC error. -/
theorem toolsList_unavailable_spec (wlQ wlM : Option (List String))
    (m : Registry) :
    handleToolsList wlQ wlM none m = (.success [], m) :=
  rfl

/-- C10: for a provided argument whose base type is the `Boolean` scalar,
the coerced value is the JavaScript truthiness of the raw value: every
non-empty string — including `"false"` — coerces to `true`, while the empty
string, `0`, `null` and `undefined` coerce to `false`. -/
theorem booleanCoercion_spec (s : GqlSchema) (argDef : GqlArg)
    (hkind : kindOf s (getNamedType argDef.type) = .scalar)
    (hname : getNamedType argDef.type = "Boolean") :
    (∀ v, coerceArg s argDef v = .bool (truthy v)) ∧
    (∀ str, truthy (.str str) = !(str == "")) ∧
    truthy (.str "false") = true ∧
    truthy (.str "") = false ∧
    truthy (.num 0) = false ∧
    truthy .null = false ∧
    truthy .undef = false := by
  refine ⟨fun v => ?_, fun str => ?_, rfl, rfl, rfl, rfl, rfl⟩
  · rw [coerceArg, hname]
    rw [hname] at hkind
    rw [hkind]
    simp
  · rw [truthy]
    rfl

/-- Witness for C10 at a concrete optional Boolean argument and the raw
string `"false"`. -/
theorem booleanCoercion_spec_witness :
    coerceArg fixBoolSchema fixBoolArg (.str "false") = .bool true := by
  have h := booleanCoercion_spec fixBoolSchema fixBoolArg (by decide) (by decide)
  rw [h.1 (.str "false")]
  rfl

/-- If a key does not occur among the provided entries, it does not occur in
the processed output. -/
theorem processArgEntries_lookup_not_mem (s : GqlSchema) (fa : List GqlArg)
    (n : String) :
    ∀ entries : List (String × JSValue), n ∉ entries.map Prod.fst →
      List.lookup n (processArgEntries s fa entries) = none
  | [], _ => rfl
  | (k, v) :: rest, hmem => by
      have hkn : ¬ (n = k) := by
        intro h
        exact hmem (by simp [h])
      have hrest : n ∉ rest.map Prod.fst := by
        intro h
        exact hmem (by simp [h])
      have hbeq : (n == k) = false := by simp [hkn]
      simp only [processArgEntries]
      split
      · exact processArgEntries_lookup_not_mem s fa n rest hrest
      · split
        · exact processArgEntries_lookup_not_mem s fa n rest hrest
        · simp only [List.lookup, hbeq]
          exact processArgEntries_lookup_not_mem s fa n rest hrest

/-- A provided argument whose name matches no declared argument never reaches
the output. -/
theorem processArgEntries_lookup_unknown (s : GqlSchema) (fa : List GqlArg)
    (n : String) (hfind : fa.find? (fun a => a.name = n) = none) :
    ∀ entries : List (String × JSValue),
      List.lookup n (processArgEntries s fa entries) = none
  | [] => rfl
  | (k, v) :: rest => by
      simp only [processArgEntries]
      split
      · exact processArgEntries_lookup_unknown s fa n hfind rest
      · rename_i argDef heq
        have hkn : ¬ (n = k) := by
          intro h
          rw [← h] at heq
          rw [hfind] at heq
          cases heq
        have hbeq : (n == k) = false := by simp [hkn]
        split
        · exact processArgEntries_lookup_unknown s fa n hfind rest
        · simp only [List.lookup, hbeq]
          exact processArgEntries_lookup_unknown s fa n hfind rest

/-- A declared optional argument whose coerced value is nullish is deleted
from the output. -/
theorem processArgEntries_drop_nullish (s : GqlSchema) (fa : List GqlArg)
    (n : String) (argDef : GqlArg) (v : JSValue)
    (hfind : fa.find? (fun a => a.name = n) = some argDef)
    (hnn : argDef.type.isNonNull = false)
    (hnull : isNullish (coerceArg s argDef v) = true) :
    ∀ entries : List (String × JSValue), (entries.map Prod.fst).Nodup →
      entries.lookup n = some v →
      List.lookup n (processArgEntries s fa entries) = none
  | [], _, hlk => by cases hlk
  | (k, w) :: rest, hnd, hlk => by
      have hndrest : (rest.map Prod.fst).Nodup := (List.nodup_cons.mp hnd).2
      by_cases hkn : n = k
      · subst hkn
        have hw : v = w := by
          simp only [List.lookup, beq_self_eq_true, if_pos] at hlk
          cases hlk
          rfl
        subst hw
        have hnotrest : n ∉ rest.map Prod.fst := (List.nodup_cons.mp hnd).1
        simp only [processArgEntries, hfind]
        rw [if_pos ⟨hnull, by simp [hnn]⟩]
        exact processArgEntries_lookup_not_mem s fa n rest hnotrest
      · have hbeq : (n == k) = false := by simp [hkn]
        have hlkrest : rest.lookup n = some v := by
          simp only [List.lookup, hbeq] at hlk
          exact hlk
        simp only [processArgEntries]
        split
        · exact processArgEntries_drop_nullish s fa n argDef v hfind hnn hnull
            rest hndrest hlkrest
        · split
          · exact processArgEntries_drop_nullish s fa n argDef v hfind hnn
              hnull rest hndrest hlkrest
          · simp only [List.lookup, hbeq]
            exact processArgEntries_drop_nullish s fa n argDef v hfind hnn
              hnull rest hndrest hlkrest

/-- C7: the argument coercer drops a provided argument whose name matches no
declared argument, and drops any declared argument whose type is not
non-null when its coerced value is `null`/`undefined` — optional absent
values are never sent as explicit nulls. -/
theorem argumentCoercer_drop_spec (s : GqlSchema) (fa : List GqlArg)
    (entries : List (String × JSValue)) (n : String) :
    (fa.find? (fun a => a.name = n) = none →
      (processArguments (some entries) fa s).lookup n = none) ∧
    (∀ argDef v, fa.find? (fun a => a.name = n) = some argDef →
      argDef.type.isNonNull = false →
      isNullish (coerceArg s argDef v) = true →
      (entries.map Prod.fst).Nodup →
      entries.lookup n = some v →
      (processArguments (some entries) fa s).lookup n = none) := by
  constructor
  · intro hfind
    exact processArgEntries_lookup_unknown s fa n hfind entries
  · intro argDef v hfind hnn hnull hnd hlk
    exact processArgEntries_drop_nullish s fa n argDef v hfind hnn hnull
      entries hnd hlk

/-- Witness for C7: with declared argument `label : String` (optional), the
unknown key `bogus` and the provided `label: null` are both absent from the
output. -/
theorem argumentCoercer_drop_spec_witness :
    (processArguments (some [("label", .null), ("bogus", .num 1)])
      [fixStrArg] fixThreeFieldSchema).lookup "bogus" = none ∧
    (processArguments (some [("label", .null), ("bogus", .num 1)])
      [fixStrArg] fixThreeFieldSchema).lookup "label" = none := by
  constructor
  · exact (argumentCoercer_drop_spec fixThreeFieldSchema [fixStrArg]
      [("label", .null), ("bogus", .num 1)] "bogus").1 (by decide)
  · exact (argumentCoercer_drop_spec fixThreeFieldSchema [fixStrArg]
      [("label", .null), ("bogus", .num 1)] "label").2 fixStrArg .null
      (by rfl) (by decide) (by decide) (by decide) (by rfl)


/-- The length of a truncation is the minimum of the cut and the original
length. -/
theorem strTake_length (s : String) (n : Nat) :
    (strTake s n).length = min n s.length := by
  show (s.toList.take n).length = min n s.length
  rw [List.length_take]
  rfl

/-- A registry binding `key -> val` survives the query-tool loop provided
every later-processed field that maps onto `key` has canonical name `val`. -/
theorem queryToolsLoop_lookup_preserved (s : GqlSchema)
    (wl : Option (List String)) (key val : String) :
    ∀ (fields : List GqlField) (m : Registry),
      List.lookup key m = some val →
      (∀ g ∈ fields, allowedBy wl g.name = true →
        externalQueryName g.name = key → g.name = val) →
      List.lookup key (queryToolsLoop s wl fields m).2 = some val
  | [], m, hm, _ => hm
  | g :: rest, m, hm, hcons => by
      simp only [queryToolsLoop]
      split
      · -- g is allowed
        rename_i hall
        have hrest : ∀ g' ∈ rest, allowedBy wl g'.name = true →
            externalQueryName g'.name = key → g'.name = val :=
          fun g' hg' => hcons g' (List.mem_cons_of_mem g hg')
        by_cases htr : externalQueryName g.name ≠ g.name
        · rw [if_pos htr]
          by_cases hkey : externalQueryName g.name = key
          · have hval : g.name = val :=
              hcons g (List.mem_cons_self g rest) hall hkey
            have hm' : List.lookup key
                ((externalQueryName g.name, g.name) :: m) = some val := by
              simp only [List.lookup, hkey]
              simp [hval]
            exact queryToolsLoop_lookup_preserved s wl key val rest _ hm' hrest
          · have hm' : List.lookup key
                ((externalQueryName g.name, g.name) :: m) = some val := by
              have hbeq : (key == externalQueryName g.name) = false := by
                simp
                intro h
                exact hkey h.symm
              simp only [List.lookup, hbeq]
              exact hm
            exact queryToolsLoop_lookup_preserved s wl key val rest _ hm' hrest
        · rw [if_neg htr]
          exact queryToolsLoop_lookup_preserved s wl key val rest m hm hrest
      · exact queryToolsLoop_lookup_preserved s wl key val rest m hm
          (fun g' hg' => hcons g' (List.mem_cons_of_mem g hg'))

/-- A truncated external name is distinct from the canonical name it
truncates. -/
theorem externalQueryName_ne_of_long (f : String) (hlen : f.length > 64) :
    externalQueryName f ≠ f := by
  rw [externalQueryName, if_pos hlen]
  intro h
  have hcongr := congrArg String.length h
  rw [strTake_length] at hcongr
  omega

/-- The registry built by the query-tool loop maps the external name of a
long listed field back to its canonical name, provided no other listed field
collides on the same external name with a different canonical name. -/
theorem queryToolsLoop_lookup_external (s : GqlSchema)
    (wl : Option (List String)) (f : GqlField) :
    ∀ (fields : List GqlField) (m₀ : Registry),
      f ∈ fields → allowedBy wl f.name = true → f.name.length > 64 →
      (∀ g ∈ fields, allowedBy wl g.name = true →
        externalQueryName g.name = externalQueryName f.name →
        g.name = f.name) →
      List.lookup (externalQueryName f.name) (queryToolsLoop s wl fields m₀).2
        = some f.name
  | [], m₀, hf, _, _, _ => absurd hf (List.not_mem_nil f)
  | g :: rest, m₀, hf, hall, hlen, huniq => by
      have hrestuniq : ∀ g' ∈ rest, allowedBy wl g'.name = true →
          externalQueryName g'.name = externalQueryName f.name →
          g'.name = f.name :=
        fun g' hg' => huniq g' (List.mem_cons_of_mem g hg')
      rcases List.mem_cons.mp hf with hfg | hfrest
      · -- f is the head: its pair is recorded, then preserved over the rest
        subst hfg
        have hne : externalQueryName f.name ≠ f.name :=
          externalQueryName_ne_of_long f.name hlen
        simp only [queryToolsLoop]
        rw [if_pos hall, if_pos hne]
        apply queryToolsLoop_lookup_preserved s wl (externalQueryName f.name)
          f.name rest ((externalQueryName f.name, f.name) :: m₀)
        · simp [List.lookup]
        · exact hrestuniq
      · -- f occurs in the tail: recurse whatever the head contributed
        simp only [queryToolsLoop]
        split
        · split
          · exact queryToolsLoop_lookup_external s wl f rest _ hfrest hall hlen
              hrestuniq
          · exact queryToolsLoop_lookup_external s wl f rest _ hfrest hall hlen
              hrestuniq
        · exact queryToolsLoop_lookup_external s wl f rest _ hfrest hall hlen
            hrestuniq

/-- C4: a 70-character query field is listed under its first 64 characters
and calling that external name resolves, through the registry the listing
built, back to the original canonical field name — the name `executeGraphQLTool`
then uses for its whitelist check and field lookup (resolution after
externalization is the identity on canonical names); a 60-character mutation
field yields an external name of exactly 64 characters that begins with the
literal `mutation_`. -/
theorem nameTruncation_spec (s : GqlSchema) (wl : Option (List String))
    (fields : List GqlField) (m₀ : Registry) (f : GqlField) (mutName : String)
    (hf : f ∈ fields) (hall : allowedBy wl f.name = true)
    (hlen : f.name.length = 70)
    (huniq : ∀ g ∈ fields, allowedBy wl g.name = true →
      externalQueryName g.name = externalQueryName f.name → g.name = f.name)
    (hmlen : mutName.length = 60) :
    externalQueryName f.name = strTake f.name 64 ∧
    resolveName (queryToolsLoop s wl fields m₀).2 (externalQueryName f.name)
      = f.name ∧
    (externalMutationName mutName).length = 64 ∧
    (∃ tail, externalMutationName mutName = "mutation_" ++ tail) := by
  have hgt : f.name.length > 64 := by omega
  have hmfull : ("mutation_" ++ mutName).length > 64 := by
    rw [String.length_append, hmlen]
    decide
  refine ⟨?_, ?_, ?_, ?_⟩
  · rw [externalQueryName, if_pos hgt]
  · rw [resolveName,
      queryToolsLoop_lookup_external s wl f fields m₀ hf hall hgt huniq]
    rfl
  · rw [externalMutationName]
    simp only [if_pos hmfull]
    rw [String.length_append, strTake_length, hmlen]
    rfl
  · refine ⟨strTake mutName (64 - ("mutation_").length), ?_⟩
    rw [externalMutationName]
    simp only [if_pos hmfull]

/-- Witness for C4 at a concrete 70-character query field and 60-character
mutation field. -/
theorem nameTruncation_spec_witness :
    resolveName (queryToolsLoop fixLongNameSchema none [fixLongField] []).2
      (externalQueryName fixLongQueryName) = fixLongQueryName ∧
    (externalMutationName fixLongMutationName).length = 64 := by
  have h := nameTruncation_spec fixLongNameSchema none [fixLongField] []
    fixLongField fixLongMutationName (by decide) (by decide) (by decide)
    (by decide) (by decide)
  exact ⟨h.2.1, h.2.2.1⟩

/-- The names of the tools produced by the query-tool loop are exactly the
external names of the whitelisted fields, in order. -/
theorem queryToolsLoop_names (s : GqlSchema) (wl : Option (List String)) :
    ∀ (fields : List GqlField) (m : Registry),
      (queryToolsLoop s wl fields m).1.map (fun t => t.name) =
        (fields.filter (fun g => allowedBy wl g.name)).map
          (fun g => externalQueryName g.name)
  | [], _ => rfl
  | g :: rest, m => by
      simp only [queryToolsLoop, List.filter_cons]
      split
      · simp only [List.map_cons, queryToolsLoop_names s wl rest]
      · exact queryToolsLoop_names s wl rest m

/-- A call whose resolved canonical name fails the whitelist is rejected with
the whitelist error, before the schema, root type or field are even
consulted. -/
theorem exec_whitelistRejected (endpoint : String) (wl : Option (List String))
    (m : Registry) (schema : Option GqlSchema)
    (args : Option (List (String × JSValue))) (n : String)
    (hrej : allowedBy wl (resolveName m n) = false) :
    executeGraphQLToolModel endpoint wl m schema n args =
      .error (.whitelistRejected (resolveName m n)) := by
  simp only [executeGraphQLToolModel]
  rw [if_pos (by simp [hrej])]

/-- C1: the query tools listed are exactly the query-root fields whose
canonical names pass the whitelist (listed under their external names, in
schema order); a `tools/call` resolving to an existing field whose canonical
name is not whitelisted fails with the whitelist-rejection error — not the
unknown-field error, which is unreachable because the whitelist check
precedes the field lookup; and a field's tool is listed if and only if the
field's canonical name passes the whitelist consulted at execution. -/
theorem whitelistSymmetry_spec (endpoint : String) (sc : GqlSchema)
    (qt : ObjectDef) (wl : Option (List String)) (m₀ : Registry)
    (schema : Option GqlSchema) (args : Option (List (String × JSValue)))
    (f : GqlField) (n : String)
    (hq : sc.queryType = some qt)
    (hf : f ∈ qt.fields)
    (huniq : ∀ g ∈ qt.fields, ∀ g' ∈ qt.fields,
      externalQueryName g.name = externalQueryName g'.name →
      g.name = g'.name) :
    ((getToolsFromSchema wl (some sc) m₀).1.map (fun t => t.name) =
      (qt.fields.filter (fun g => allowedBy wl g.name)).map
        (fun g => externalQueryName g.name)) ∧
    (allowedBy wl f.name = false →
      resolveName (getToolsFromSchema wl (some sc) m₀).2 n = f.name →
      executeGraphQLToolModel endpoint wl (getToolsFromSchema wl (some sc) m₀).2
        schema n args = .error (.whitelistRejected f.name)) ∧
    ((∃ t ∈ (getToolsFromSchema wl (some sc) m₀).1,
        t.name = externalQueryName f.name) ↔ allowedBy wl f.name = true) := by
  have hred : getToolsFromSchema wl (some sc) m₀ =
      queryToolsLoop sc wl qt.fields m₀ := by
    simp only [getToolsFromSchema, hq]
  refine ⟨?_, ?_, ?_⟩
  · rw [hred]
    exact queryToolsLoop_names sc wl qt.fields m₀
  · intro hrej hres
    have h := exec_whitelistRejected endpoint wl
      (getToolsFromSchema wl (some sc) m₀).2 schema args n
      (by rw [hres]; exact hrej)
    rw [hres] at h
    exact h
  · constructor
    · rintro ⟨t, ht, hname⟩
      have hmem : externalQueryName f.name ∈
          (queryToolsLoop sc wl qt.fields m₀).1.map (fun t => t.name) := by
        rw [← hname]
        exact List.mem_map_of_mem _ (by rw [← hred]; exact ht)
      rw [queryToolsLoop_names sc wl qt.fields m₀] at hmem
      rcases List.mem_map.mp hmem with ⟨g, hgmem, hgext⟩
      rcases List.mem_filter.mp hgmem with ⟨hgfields, hgall⟩
      have hgf : g.name = f.name := huniq g hgfields f hf hgext
      rw [← hgf]
      exact hgall
    · intro hall
      have hmem : externalQueryName f.name ∈
          (qt.fields.filter (fun g => allowedBy wl g.name)).map
            (fun g => externalQueryName g.name) :=
        List.mem_map_of_mem _ (List.mem_filter.mpr ⟨hf, hall⟩)
      rw [← queryToolsLoop_names sc wl qt.fields m₀] at hmem
      rcases List.mem_map.mp hmem with ⟨t, ht, hname⟩
      exact ⟨t, by rw [hred]; exact ht, hname⟩

/-- Witness for C1: with query whitelist `["a", "b"]` over the three-field
schema, `tools/list` lists exactly `a` and `b`, and calling the existing
field `c` is rejected by the whitelist (not reported as unknown). -/
theorem whitelistSymmetry_spec_witness :
    ((getToolsFromSchema (some ["a", "b"]) (some fixThreeFieldSchema) []).1.map
      (fun t => t.name) = ["a", "b"]) ∧
    executeGraphQLToolModel "http://e" (some ["a", "b"])
      (getToolsFromSchema (some ["a", "b"]) (some fixThreeFieldSchema) []).2
      (some fixThreeFieldSchema) "c" (some []) =
      .error (.whitelistRejected "c") := by
  have h := whitelistSymmetry_spec "http://e" fixThreeFieldSchema
    fixThreeQueryType (some ["a", "b"]) [] (some fixThreeFieldSchema)
    (some []) { name := "c", args := [], type := .named "String",
                description := none } "c"
    (by decide) (by decide) (by decide)
  refine ⟨?_, ?_⟩
  · rw [h.1]
    rfl
  · exact h.2.1 (by decide) (by decide)

/-- Taking a prefix cannot increase the selection depth measure. -/
theorem selDepthList_take : ∀ (l : List FieldSelection) (n : Nat),
    selDepthList (l.take n) ≤ selDepthList l
  | [], _ => by simp
  | _ :: _, 0 => by simp [selDepthList]
  | x :: xs, n + 1 => by
      simp only [List.take_succ_cons, selDepthList]
      exact max_le_max (Nat.le_refl _) (selDepthList_take xs n)

/-- Taking a prefix preserves selection soundness. -/
theorem SelSoundList_take (s : GqlSchema) (t : ObjectDef) :
    ∀ (l : List FieldSelection) (n : Nat),
      SelSoundList s t l → SelSoundList s t (l.take n)
  | [], n, _ => by rw [List.take_nil]; simp [SelSoundList]
  | _ :: _, 0, _ => by rw [List.take_zero]; simp [SelSoundList]
  | x :: xs, n + 1, h => by
      rw [List.take_succ_cons]
      exact ⟨h.1, SelSoundList_take s t xs n h.2⟩

/-- Taking a prefix preserves narrowness. -/
theorem SelNarrowList_take : ∀ (l : List FieldSelection) (n : Nat),
    SelNarrowList l → SelNarrowList (l.take n)
  | [], n, _ => by rw [List.take_nil]; simp [SelNarrowList]
  | _ :: _, 0, _ => by rw [List.take_zero]; simp [SelNarrowList]
  | x :: xs, n + 1, h => by
      rw [List.take_succ_cons]
      exact ⟨h.1, SelNarrowList_take xs n h.2⟩

mutual
/-- Combined planner invariant: the selection returned by `analyzeFields` at
recursion depth `depth` has depth measure at most `3 - depth`, is sound for
the analyzed type, and keeps at most three sub-fields in every nested
selection. -/
theorem analyzeFields_props (s : GqlSchema) :
    ∀ (t : ObjectDef) (visited : List String) (depth : Nat),
      selDepthList (analyzeFields s t visited depth).1 ≤ 3 - depth ∧
      SelSoundList s t (analyzeFields s t visited depth).1 ∧
      SelNarrowList (analyzeFields s t visited depth).1
  | t, visited, depth => by
      rw [analyzeFields]
      split
      · exact ⟨by simp [selDepthList], trivial, trivial⟩
      · rename_i hguard
        push_neg at hguard
        have hd : depth ≤ 2 := by omega
        exact analyzeFieldsLoop_props s t t.fields (t.name :: visited) depth hd
          (fun f hf => hf)
termination_by _ _ depth => (3 - depth, 1, 0)

/-- Combined planner invariant for the field loop, for any sub-list of the
analyzed type's fields. -/
theorem analyzeFieldsLoop_props (s : GqlSchema) :
    ∀ (t : ObjectDef) (fs : List GqlField) (visited : List String)
      (depth : Nat), depth ≤ 2 → (∀ f ∈ fs, f ∈ t.fields) →
      selDepthList (analyzeFieldsLoop s fs visited depth).1 ≤ 3 - depth ∧
      SelSoundList s t (analyzeFieldsLoop s fs visited depth).1 ∧
      SelNarrowList (analyzeFieldsLoop s fs visited depth).1
  | t, [], visited, depth, _, _ => by
      refine ⟨?_, ?_, ?_⟩ <;>
        simp [analyzeFieldsLoop, selDepthList, SelSoundList, SelNarrowList]
  | t, f :: rest, visited, depth, hd, hsub => by
      have hfmem : f ∈ t.fields := hsub f (List.mem_cons_self f rest)
      have hrestsub : ∀ g ∈ rest, g ∈ t.fields :=
        fun g hg => hsub g (List.mem_cons_of_mem f hg)
      simp only [analyzeFieldsLoop]
      split
      · exact analyzeFieldsLoop_props s t rest visited depth hd hrestsub
      · rename_i hargs
        have hlen0 : f.args.length = 0 := by omega
        have hargsnil : f.args = [] := List.length_eq_zero.mp hlen0
        split
        · -- scalar
          rename_i hkind
          have ih := analyzeFieldsLoop_props s t rest visited depth hd hrestsub
          simp only [selDepthList, selDepth, SelSoundList, SelSound,
            SelNarrowList, SelNarrow]
          refine ⟨?_, ⟨⟨f, hfmem, rfl, hargsnil⟩, ih.2.1⟩, trivial, ih.2.2⟩
          have h1 := ih.1
          omega
        · -- enum
          rename_i hkind
          have ih := analyzeFieldsLoop_props s t rest visited depth hd hrestsub
          simp only [selDepthList, selDepth, SelSoundList, SelSound,
            SelNarrowList, SelNarrow]
          refine ⟨?_, ⟨⟨f, hfmem, rfl, hargsnil⟩, ih.2.1⟩, trivial, ih.2.2⟩
          have h1 := ih.1
          omega
        · -- object
          rename_i hkind
          split
          · rename_i hlt
            split
            · rename_i od hod
              have ihn := analyzeFields_props s od visited (depth + 1)
              have ih := analyzeFieldsLoop_props s t rest
                (analyzeFields s od visited (depth + 1)).2 depth hd hrestsub
              split
              · simp only [selDepthList, selDepth, SelSoundList, SelSound,
                  SelNarrowList, SelNarrow]
                refine ⟨?_, ⟨⟨f, hfmem, rfl, hargsnil, od, hod,
                  SelSoundList_take s od _ 3 ihn.2.1⟩, ih.2.1⟩,
                  ⟨?_, SelNarrowList_take _ 3 ihn.2.2⟩, ih.2.2⟩
                · have h1 := selDepthList_take
                    (analyzeFields s od visited (depth + 1)).1 3
                  have h2 := ihn.1
                  have h3 := ih.1
                  omega
                · have := List.length_take 3
                    (analyzeFields s od visited (depth + 1)).1
                  omega
              · exact ih
            · exact analyzeFieldsLoop_props s t rest visited depth hd hrestsub
          · exact analyzeFieldsLoop_props s t rest visited depth hd hrestsub
        · -- other kinds
          exact analyzeFieldsLoop_props s t rest visited depth hd hrestsub
termination_by _ fs _ depth => (3 - depth, 0, fs.length + 1)
end

/-- Every argument-free scalar or enum field of the analyzed type appears by
name in the loop's own result list. -/
theorem analyzeFieldsLoop_complete (s : GqlSchema) (f : GqlField)
    (hargs : f.args = [])
    (hkind : kindOf s (getNamedType f.type) = .scalar ∨
      kindOf s (getNamedType f.type) = .enum) :
    ∀ (fs : List GqlField) (visited : List String) (depth : Nat),
      f ∈ fs →
      FieldSelection.leaf f.name ∈ (analyzeFieldsLoop s fs visited depth).1
  | [], _, _, hmem => absurd hmem (List.not_mem_nil f)
  | g :: rest, visited, depth, hmem => by
      simp only [analyzeFieldsLoop]
      rcases List.mem_cons.mp hmem with hfg | hfrest
      · subst hfg
        rw [if_neg (by simp [hargs])]
        rcases hkind with hk | hk
        · rw [hk]
          exact List.mem_cons_self _ _
        · rw [hk]
          exact List.mem_cons_self _ _
      · split
        · exact analyzeFieldsLoop_complete s f hargs hkind rest visited depth
            hfrest
        · split
          · exact List.mem_cons_of_mem _
              (analyzeFieldsLoop_complete s f hargs hkind rest visited depth
                hfrest)
          · exact List.mem_cons_of_mem _
              (analyzeFieldsLoop_complete s f hargs hkind rest visited depth
                hfrest)
          · split
            · split
              · rename_i od hod
                split
                · exact List.mem_cons_of_mem _
                    (analyzeFieldsLoop_complete s f hargs hkind rest _ depth
                      hfrest)
                · exact analyzeFieldsLoop_complete s f hargs hkind rest _ depth
                    hfrest
              · exact analyzeFieldsLoop_complete s f hargs hkind rest visited
                  depth hfrest
            · exact analyzeFieldsLoop_complete s f hargs hkind rest visited
                depth hfrest
          · exact analyzeFieldsLoop_complete s f hargs hkind rest visited depth
              hfrest

/-- C6: for an object return type analyzed from the root (`visited = ∅`,
`depth = 0`), the planned selection set contains no field at depth greater
than 2 — counting the direct selections of the return type as depth 0, the
same convention as the source's `depth` counter, so the measure bound 3 says
every field lies at depth ≤ 2 —, contains only fields that exist on their
type and declare no arguments, keeps at most the first three sub-fields of
every nested selection, and includes every argument-free scalar or enum field
of the root type by name. -/
theorem selectionPlanner_spec (s : GqlSchema) (t : ObjectDef) :
    selDepthList (analyzeFields s t [] 0).1 ≤ 3 ∧
    SelSoundList s t (analyzeFields s t [] 0).1 ∧
    SelNarrowList (analyzeFields s t [] 0).1 ∧
    (∀ f ∈ t.fields, f.args = [] →
      (kindOf s (getNamedType f.type) = .scalar ∨
        kindOf s (getNamedType f.type) = .enum) →
      FieldSelection.leaf f.name ∈ (analyzeFields s t [] 0).1) := by
  have h := analyzeFields_props s t [] 0
  refine ⟨h.1, h.2.1, h.2.2, ?_⟩
  intro f hf hargs hkind
  rw [analyzeFields]
  rw [if_neg (by simp)]
  exact analyzeFieldsLoop_complete s f hargs hkind t.fields [t.name] 0 hf

/-- Witness for C6 on the depth-4 schema: the planned selection for `A` stays
within the depth bound and includes the scalar field `x`. -/
theorem selectionPlanner_spec_witness :
    selDepthList (analyzeFields fixDeepSchema fixDeepA [] 0).1 ≤ 3 ∧
    FieldSelection.leaf "x" ∈ (analyzeFields fixDeepSchema fixDeepA [] 0).1 := by
  have h := selectionPlanner_spec fixDeepSchema fixDeepA
  refine ⟨h.1, ?_⟩
  exact h.2.2.2 ⟨"x", [], .named "Int", none⟩ (by decide) (by decide)
    (Or.inl (by decide))

/-- Counterexample to C2 as stated: calling `getUser` — whose `id : Int!`
argument is required — with empty arguments does not fail with any
locally-generated error; the model runs every local check (whitelist, schema,
root type, field lookup, argument processing, document assembly, endpoint
check and the `parse` syntax validation) and reaches the network submission
(`Except.ok`), so the upstream request is made. -/
theorem missingRequiredArg_counterexample :
    (executeGraphQLToolModel "http://e" none [] (some fixRequiredArgSchema)
      "getUser" (some [])).isOk = true := by decide

/-- C2 amended: a `tools/call` of a query tool that omits a declared non-null
(required) scalar argument is not rejected locally — argument processing
simply drops the omitted argument, and whenever the call reaches the network
boundary the dispatched request's variable map omits the argument entirely;
the required-argument failure, if any, originates upstream. -/
theorem missingRequiredArg_spec (endpoint : String) (wl : Option (List String))
    (m : Registry) (sc : GqlSchema) (qt : ObjectDef) (field : GqlField)
    (a : GqlArg) (entries : List (String × JSValue)) (name : String)
    (hq : sc.queryType = some qt)
    (hallow : allowedBy wl (resolveName m name) = true)
    (hfind : qt.fields.find? (fun f => f.name = resolveName m name)
      = some field)
    (_ha : a ∈ field.args)
    (_hreq : a.type.isNonNull = true)
    (_hkind : kindOf sc (getNamedType a.type) = .scalar)
    (homit : a.name ∉ entries.map Prod.fst) :
    (processArguments (some entries) field.args sc).lookup a.name = none ∧
    ∀ req, executeGraphQLToolModel endpoint wl m (some sc) name (some entries)
      = .ok req → req.vars.lookup a.name = none := by
  have hdrop : (processArguments (some entries) field.args sc).lookup a.name
      = none :=
    processArgEntries_lookup_not_mem sc field.args a.name entries homit
  refine ⟨hdrop, ?_⟩
  intro req hok
  simp only [executeGraphQLToolModel] at hok
  rw [if_neg (by simp [hallow])] at hok
  rw [hq] at hok
  simp only [hfind] at hok
  simp only [executeQueryLocal] at hok
  split at hok
  · cases hok
  · split at hok
    · cases hok
      exact hdrop
    · cases hok

/-- Witness for the amended C2 at the concrete `getUser(id: Int!)` schema
with empty caller arguments. -/
theorem missingRequiredArg_spec_witness :
    (processArguments (some []) fixGetUserField.args
      fixRequiredArgSchema).lookup "id" = none :=
  (missingRequiredArg_spec "http://e" none [] fixRequiredArgSchema
    fixRequiredQt fixGetUserField fixGetUserArg [] "getUser"
    (by decide) (by decide) (by decide) (by decide) (by decide) (by decide)
    (by decide)).1

/-- A cache that is not live at `now` is not live at any later instant. -/
theorem cacheLiveAt_mono_false (c : Option GqlSchema) (e : Option Nat)
    (now now' : Nat) (h : cacheLiveAt c e now = false) (hle : now ≤ now') :
    cacheLiveAt c e now' = false := by
  cases c <;> cases e <;> first
  | rfl
  | (simp [cacheLiveAt] at h ⊢; omega)

/-- Running an appended schedule composes the runs. -/
theorem runSched_append (ttl now : Nat) (st : SysState)
    (l1 l2 : List SchedEvent) :
    runSched ttl now st (l1 ++ l2) =
      runSched ttl now (runSched ttl now st l1) l2 :=
  List.foldl_append _ _ l1 l2

/-- Any event other than the completion preserves the cold-start invariant. -/
theorem preInv_step (ttl now n : Nat) (st : SysState) (e : SchedEvent)
    (hinv : PreInv n st) (hne : e.isComplete = false) :
    PreInv n (sysStep ttl now st e) := by
  obtain ⟨hc, hx, hlen, hcase⟩ := hinv
  cases e with
  | complete o => simp [SchedEvent.isComplete] at hne
  | entry i =>
      simp only [sysStep]
      cases hgp : st.threads[i]? with
      | none => exact ⟨hc, hx, hlen, hcase⟩
      | some q =>
          cases q with
          | start =>
              rcases hcase with ⟨hip, hreq, hall⟩ | ⟨hip, hreq, hall⟩
              · rw [if_neg (by simp [hip]),
                  if_neg (by rw [hc]; simp [cacheLiveAt])]
                refine ⟨hc, hx, by rw [List.length_set]; exact hlen,
                  Or.inr ⟨rfl, by rw [hreq], ?_⟩⟩
                intro p hp
                rcases List.mem_or_eq_of_mem_set hp with hmem | rfl
                · exact Or.inl (hall p hmem)
                · exact Or.inr (Or.inr rfl)
              · rw [if_pos hip]
                refine ⟨hc, hx, by rw [List.length_set]; exact hlen,
                  Or.inr ⟨hip, hreq, ?_⟩⟩
                intro p hp
                rcases List.mem_or_eq_of_mem_set hp with hmem | rfl
                · exact hall p hmem
                · exact Or.inr (Or.inl rfl)
          | polling => exact ⟨hc, hx, hlen, hcase⟩
          | awaitingNet => exact ⟨hc, hx, hlen, hcase⟩
          | done r => exact ⟨hc, hx, hlen, hcase⟩
  | poll i =>
      simp only [sysStep]
      cases hgp : st.threads[i]? with
      | none => exact ⟨hc, hx, hlen, hcase⟩
      | some q =>
          cases q with
          | polling =>
              rcases hcase with ⟨hip, hreq, hall⟩ | ⟨hip, hreq, hall⟩
              · have hmem : ThreadPhase.polling ∈ st.threads := by
                  rcases List.getElem?_eq_some.mp hgp with ⟨hlt, hval⟩
                  rw [← hval]
                  exact List.getElem_mem hlt
                cases hall _ hmem
              · rw [if_pos hip]
                exact ⟨hc, hx, hlen, Or.inr ⟨hip, hreq, hall⟩⟩
          | start => exact ⟨hc, hx, hlen, hcase⟩
          | awaitingNet => exact ⟨hc, hx, hlen, hcase⟩
          | done r => exact ⟨hc, hx, hlen, hcase⟩

/-- `preInv_step` folded over a completion-free schedule. -/
theorem preInv_run (ttl now n : Nat) :
    ∀ (evs : List SchedEvent) (st : SysState), PreInv n st →
      (∀ e ∈ evs, e.isComplete = false) →
      PreInv n (runSched ttl now st evs)
  | [], _, h, _ => h
  | e :: evs, st, h, hne =>
      preInv_run ttl now n evs (sysStep ttl now st e)
        (preInv_step ttl now n st e h (hne e (List.mem_cons_self e evs)))
        (fun e' he' => hne e' (List.mem_cons_of_mem e he'))

/-- Characterization of an `entry` event for a caller still at `start`. -/
theorem sysStep_entry_start (ttl now : Nat) (st : SysState) (i : Nat)
    (hgp : st.threads[i]? = some .start) :
    sysStep ttl now st (.entry i) =
      (if st.inProgress = true then
        { st with threads := st.threads.set i .polling }
      else if cacheLiveAt st.cache st.expiry now = true then
        { st with threads := st.threads.set i (.done st.cache) }
      else { st with
          inProgress := true
          requests := st.requests + 1
          threads := st.threads.set i .awaitingNet }) := by
  simp only [sysStep]
  rw [hgp]

/-- Characterization of a `poll` event for a polling caller. -/
theorem sysStep_poll_polling (ttl now : Nat) (st : SysState) (i : Nat)
    (hgp : st.threads[i]? = some .polling) :
    sysStep ttl now st (.poll i) =
      (if st.inProgress = true then st
      else { st with threads := st.threads.set i (.done st.cache) }) := by
  simp only [sysStep]
  rw [hgp]

/-- An `entry` event leaves every other caller's phase unchanged. -/
theorem sysStep_entry_getElem_ne (ttl now : Nat) (st : SysState) (i j : Nat)
    (hij : j ≠ i) :
    (sysStep ttl now st (.entry j)).threads[i]? = st.threads[i]? := by
  cases hgp : st.threads[j]? with
  | none => simp only [sysStep, hgp]
  | some q =>
      cases q with
      | start =>
          simp only [sysStep, hgp]
          split
          · exact List.getElem?_set_ne hij
          · split
            · exact List.getElem?_set_ne hij
            · exact List.getElem?_set_ne hij
      | polling => simp only [sysStep, hgp]
      | awaitingNet => simp only [sysStep, hgp]
      | done r => simp only [sysStep, hgp]

/-- A `poll` event leaves every other caller's phase unchanged. -/
theorem sysStep_poll_getElem_ne (ttl now : Nat) (st : SysState) (i j : Nat)
    (hij : j ≠ i) :
    (sysStep ttl now st (.poll j)).threads[i]? = st.threads[i]? := by
  cases hgp : st.threads[j]? with
  | none => simp only [sysStep, hgp]
  | some q =>
      cases q with
      | polling =>
          simp only [sysStep, hgp]
          split
          · rfl
          · exact List.getElem?_set_ne hij
      | start => simp only [sysStep, hgp]
      | awaitingNet => simp only [sysStep, hgp]
      | done r => simp only [sysStep, hgp]

/-- No event can move a caller back to the `start` phase. -/
theorem step_not_start (ttl now : Nat) (st : SysState) (e : SchedEvent)
    (i : Nat) (h : ∀ p, st.threads[i]? = some p → p ≠ .start) :
    ∀ p, (sysStep ttl now st e).threads[i]? = some p → p ≠ .start := by
  cases e with
  | entry j =>
      by_cases hij : j = i
      · subst hij
        cases hgp : st.threads[j]? with
        | none =>
            simp only [sysStep, hgp]
            intro p hp
            cases hp
        | some q =>
            cases q with
            | start => exact absurd rfl (h .start hgp)
            | polling =>
                simp only [sysStep, hgp]
                intro p hp
                cases hp
                intro hc
                cases hc
            | awaitingNet =>
                simp only [sysStep, hgp]
                intro p hp
                cases hp
                intro hc
                cases hc
            | done r =>
                simp only [sysStep, hgp]
                intro p hp
                cases hp
                intro hc
                cases hc
      · intro p hp
        rw [sysStep_entry_getElem_ne ttl now st i j hij] at hp
        exact h p hp
  | poll j =>
      by_cases hij : j = i
      · subst hij
        cases hgp : st.threads[j]? with
        | none =>
            simp only [sysStep, hgp]
            intro p hp
            cases hp
        | some q =>
            cases q with
            | polling =>
                rw [sysStep_poll_polling ttl now st j hgp]
                intro p hp
                split at hp
                · exact h p hp
                · have hp' : (st.threads.set j
                      (ThreadPhase.done st.cache))[j]? = some p := hp
                  rcases List.getElem?_eq_some.mp hp' with ⟨hlt, hval⟩
                  rw [List.length_set] at hlt
                  rw [List.getElem?_set_self hlt] at hp'
                  cases hp'
                  intro hc
                  cases hc
            | start => exact absurd rfl (h .start hgp)
            | awaitingNet =>
                simp only [sysStep, hgp]
                intro p hp
                cases hp
                intro hc
                cases hc
            | done r =>
                simp only [sysStep, hgp]
                intro p hp
                cases hp
                intro hc
                cases hc
      · intro p hp
        rw [sysStep_poll_getElem_ne ttl now st i j hij] at hp
        exact h p hp
  | complete o =>
      simp only [sysStep]
      split
      · intro p hp
        cases o with
        | some schema =>
            simp only [List.getElem?_map] at hp
            cases hq : st.threads[i]? with
            | none => rw [hq] at hp; cases hp
            | some q =>
                rw [hq] at hp
                have hqs := h q hq
                cases q with
                | awaitingNet => cases hp; intro hc; cases hc
                | start => exact absurd rfl hqs
                | polling => cases hp; intro hc; cases hc
                | done r => cases hp; intro hc; cases hc
        | none =>
            simp only [List.getElem?_map] at hp
            cases hq : st.threads[i]? with
            | none => rw [hq] at hp; cases hp
            | some q =>
                rw [hq] at hp
                have hqs := h q hq
                cases q with
                | awaitingNet => cases hp; intro hc; cases hc
                | start => exact absurd rfl hqs
                | polling => cases hp; intro hc; cases hc
                | done r => cases hp; intro hc; cases hc
      · exact h

/-- `step_not_start` folded over a schedule. -/
theorem run_not_start (ttl now : Nat) :
    ∀ (evs : List SchedEvent) (st : SysState) (i : Nat),
      (∀ p, st.threads[i]? = some p → p ≠ .start) →
      ∀ p, (runSched ttl now st evs).threads[i]? = some p → p ≠ .start
  | [], _, _, h => h
  | e :: evs, st, i, h =>
      run_not_start ttl now evs (sysStep ttl now st e) i
        (step_not_start ttl now st e i h)

/-- A caller that has entered `fetchSchema` is not at `start` afterwards. -/
theorem entry_makes_not_start (ttl now : Nat) (st : SysState) (i : Nat)
    (hi : i < st.threads.length) :
    ∀ p, (sysStep ttl now st (.entry i)).threads[i]? = some p →
      p ≠ .start := by
  cases hgp : st.threads[i]? with
  | none =>
      rw [List.getElem?_eq_getElem hi] at hgp
      cases hgp
  | some q =>
      cases q with
      | start =>
          rw [sysStep_entry_start ttl now st i hgp]
          intro p hp
          split at hp
          · have hp' : (st.threads.set i ThreadPhase.polling)[i]?
                = some p := hp
            rw [List.getElem?_set_self hi] at hp'
            cases hp'
            intro hc
            cases hc
          · split at hp
            · have hp' : (st.threads.set i
                  (ThreadPhase.done st.cache))[i]? = some p := hp
              rw [List.getElem?_set_self hi] at hp'
              cases hp'
              intro hc
              cases hc
            · have hp' : (st.threads.set i ThreadPhase.awaitingNet)[i]?
                  = some p := hp
              rw [List.getElem?_set_self hi] at hp'
              cases hp'
              intro hc
              cases hc
      | polling =>
          simp only [sysStep, hgp]
          intro p hp
          cases hp
          intro hc
          cases hc
      | awaitingNet =>
          simp only [sysStep, hgp]
          intro p hp
          cases hp
          intro hc
          cases hc
      | done r =>
          simp only [sysStep, hgp]
          intro p hp
          cases hp
          intro hc
          cases hc

/-- A completed caller's result never changes under entry/poll events. -/
theorem step_done_stable (ttl now : Nat) (st : SysState) (e : SchedEvent)
    (i : Nat) (r : Option GqlSchema) (hne : e.isComplete = false)
    (h : st.threads[i]? = some (.done r)) :
    (sysStep ttl now st e).threads[i]? = some (.done r) := by
  cases e with
  | complete o => simp [SchedEvent.isComplete] at hne
  | entry j =>
      by_cases hij : j = i
      · subst hij
        simp only [sysStep, h]
      · rw [sysStep_entry_getElem_ne ttl now st i j hij]
        exact h
  | poll j =>
      by_cases hij : j = i
      · subst hij
        simp only [sysStep, h]
      · rw [sysStep_poll_getElem_ne ttl now st i j hij]
        exact h

/-- `step_done_stable` folded over a completion-free schedule. -/
theorem run_done_stable (ttl now : Nat) :
    ∀ (evs : List SchedEvent) (st : SysState) (i : Nat) (r : Option GqlSchema),
      (∀ e ∈ evs, e.isComplete = false) →
      st.threads[i]? = some (.done r) →
      (runSched ttl now st evs).threads[i]? = some (.done r)
  | [], _, _, _, _, h => h
  | e :: evs, st, i, r, hne, h =>
      run_done_stable ttl now evs (sysStep ttl now st e) i r
        (fun e' he' => hne e' (List.mem_cons_of_mem e he'))
        (step_done_stable ttl now st e i r (hne e (List.mem_cons_self e evs)) h)

/-- Non-completion events preserve the post-completion invariant. -/
theorem postInv_step (ttl now n : Nat) (o : Option GqlSchema) (st : SysState)
    (e : SchedEvent) (hinv : PostInv n o st) (hne : e.isComplete = false) :
    PostInv n o (sysStep ttl now st e) := by
  obtain ⟨hip, hreq, hc, hlen, hth⟩ := hinv
  cases e with
  | complete o' => simp [SchedEvent.isComplete] at hne
  | entry j =>
      cases hgp : st.threads[j]? with
      | none =>
          simp only [sysStep, hgp]
          exact ⟨hip, hreq, hc, hlen, hth⟩
      | some q =>
          cases q with
          | start =>
              exfalso
              by_cases hj : j < n
              · rcases hth j hj with hx | hx
                · rw [hgp] at hx
                  cases hx
                · rw [hgp] at hx
                  cases hx
              · have hnone : st.threads[j]? = none :=
                  List.getElem?_eq_none (by omega)
                rw [hgp] at hnone
                cases hnone
          | awaitingNet =>
              exfalso
              by_cases hj : j < n
              · rcases hth j hj with hx | hx
                · rw [hgp] at hx
                  cases hx
                · rw [hgp] at hx
                  cases hx
              · have hnone : st.threads[j]? = none :=
                  List.getElem?_eq_none (by omega)
                rw [hgp] at hnone
                cases hnone
          | polling =>
              simp only [sysStep, hgp]
              exact ⟨hip, hreq, hc, hlen, hth⟩
          | done r =>
              simp only [sysStep, hgp]
              exact ⟨hip, hreq, hc, hlen, hth⟩
  | poll j =>
      cases hgp : st.threads[j]? with
      | none =>
          simp only [sysStep, hgp]
          exact ⟨hip, hreq, hc, hlen, hth⟩
      | some q =>
          cases q with
          | polling =>
              rw [sysStep_poll_polling ttl now st j hgp]
              rw [if_neg (by simp [hip])]
              refine ⟨hip, hreq, hc, by rw [List.length_set]; exact hlen, ?_⟩
              intro k hk
              by_cases hjk : j = k
              · subst hjk
                right
                have hset : (st.threads.set j
                    (ThreadPhase.done st.cache))[j]? =
                      some (ThreadPhase.done st.cache) :=
                  List.getElem?_set_self (by rw [hlen]; exact hk)
                exact Eq.trans hset (by rw [hc])
              · have hset := List.getElem?_set_ne (a := ThreadPhase.done st.cache)
                  (l := st.threads) hjk
                rcases hth k hk with hx | hx
                · left
                  rw [hset]
                  exact hx
                · right
                  rw [hset]
                  exact hx
          | start =>
              simp only [sysStep, hgp]
              exact ⟨hip, hreq, hc, hlen, hth⟩
          | awaitingNet =>
              simp only [sysStep, hgp]
              exact ⟨hip, hreq, hc, hlen, hth⟩
          | done r =>
              simp only [sysStep, hgp]
              exact ⟨hip, hreq, hc, hlen, hth⟩

/-- `postInv_step` folded over a completion-free schedule. -/
theorem postInv_run (ttl now n : Nat) (o : Option GqlSchema) :
    ∀ (evs : List SchedEvent) (st : SysState), PostInv n o st →
      (∀ e ∈ evs, e.isComplete = false) →
      PostInv n o (runSched ttl now st evs)
  | [], _, h, _ => h
  | e :: evs, st, h, hne =>
      postInv_run ttl now n o evs (sysStep ttl now st e)
        (postInv_step ttl now n o st e h (hne e (List.mem_cons_self e evs)))
        (fun e' he' => hne e' (List.mem_cons_of_mem e he'))

/-- The completion event establishes the post-completion invariant: the
fetching caller returns the outcome, the cache holds exactly the outcome,
and no further request was issued. -/
theorem complete_establishes_post (ttl now n : Nat) (o : Option GqlSchema)
    (st : SysState) (hc : st.cache = none) (hlen : st.threads.length = n)
    (hip : st.inProgress = true) (hreq : st.requests = 1)
    (hth : ∀ p ∈ st.threads, p = .polling ∨ p = .awaitingNet) :
    PostInv n o (sysStep ttl now st (.complete o)) := by
  simp only [sysStep]
  rw [if_pos hip]
  cases o with
  | some schema =>
      refine ⟨rfl, hreq, rfl, by rw [List.length_map]; exact hlen, ?_⟩
      intro i hi
      have hlt : i < st.threads.length := by omega
      rw [List.getElem?_map, List.getElem?_eq_getElem hlt]
      rcases hth _ (List.getElem_mem hlt) with hv | hv
      · rw [hv]
        left
        rfl
      · rw [hv]
        right
        rfl
  | none =>
      refine ⟨rfl, hreq, hc, by rw [List.length_map]; exact hlen, ?_⟩
      intro i hi
      have hlt : i < st.threads.length := by omega
      rw [List.getElem?_map, List.getElem?_eq_getElem hlt]
      rcases hth _ (List.getElem_mem hlt) with hv | hv
      · rw [hv]
        left
        rfl
      · rw [hv]
        right
        rfl

/-- A polling caller that polls after completion returns the completed
outcome. -/
theorem poll_makes_done (ttl now n : Nat) (o : Option GqlSchema)
    (st : SysState) (i : Nat) (hinv : PostInv n o st) (hi : i < n) :
    (sysStep ttl now st (.poll i)).threads[i]? = some (.done o) := by
  obtain ⟨hip, hreq, hc, hlen, hth⟩ := hinv
  rcases hth i hi with hpol | hdone
  · rw [sysStep_poll_polling ttl now st i hpol]
    rw [if_neg (by simp [hip])]
    have hset : (st.threads.set i (ThreadPhase.done st.cache))[i]? =
        some (ThreadPhase.done st.cache) :=
      List.getElem?_set_self (by rw [hlen]; exact hi)
    exact Eq.trans hset (by rw [hc])
  · simp only [sysStep, hdone]

/-- The cold-start state satisfies the pre-completion invariant. -/
theorem preInv_init (n : Nat) : PreInv n (initSys n) := by
  refine ⟨rfl, rfl, List.length_replicate n _, Or.inl ⟨rfl, rfl, ?_⟩⟩
  intro p hp
  exact List.eq_of_mem_replicate hp

/-- After a completion-free prefix containing every caller's entry, exactly
one request has been issued, the fetch is in flight, and every caller is
polling or awaiting the network. -/
theorem pre_phase (ttl now n : Nat) (pre : List SchedEvent) (hn : 0 < n)
    (hpre : ∀ e ∈ pre, e.isComplete = false)
    (hentries : ∀ i, i < n → SchedEvent.entry i ∈ pre) :
    PreInv n (runSched ttl now (initSys n) pre) ∧
    (runSched ttl now (initSys n) pre).inProgress = true ∧
    (runSched ttl now (initSys n) pre).requests = 1 ∧
    ∀ p ∈ (runSched ttl now (initSys n) pre).threads,
      p = .polling ∨ p = .awaitingNet := by
  have hinv1 := preInv_run ttl now n pre (initSys n) (preInv_init n) hpre
  have hns : ∀ i, i < n → ∀ p,
      (runSched ttl now (initSys n) pre).threads[i]? = some p →
      p ≠ .start := by
    intro i hi
    rcases List.append_of_mem (hentries i hi) with ⟨l1, l2, rfl⟩
    rw [runSched_append]
    have hinvl1 := preInv_run ttl now n l1 (initSys n) (preInv_init n)
      (fun e he => hpre e (by simp [he]))
    have hlen1 : (runSched ttl now (initSys n) l1).threads.length = n :=
      hinvl1.2.2.1
    have hstep := entry_makes_not_start ttl now
      (runSched ttl now (initSys n) l1) i (by rw [hlen1]; exact hi)
    exact run_not_start ttl now l2 _ i hstep
  rcases hinv1.2.2.2 with ⟨hip0, hreq0, hall⟩ | ⟨hip1, hreq1, hall⟩
  · exfalso
    have hlt : 0 < (runSched ttl now (initSys n) pre).threads.length := by
      rw [hinv1.2.2.1]
      exact hn
    have h0 := List.getElem?_eq_getElem hlt
    have hv := hall _ (List.getElem_mem hlt)
    exact hns 0 hn _ h0 hv
  · refine ⟨hinv1, hip1, hreq1, ?_⟩
    intro p hp
    rcases hall p hp with h | h | h
    · exfalso
      rcases List.mem_iff_getElem?.mp hp with ⟨i, hgi⟩
      have hi : i < n := by
        rcases List.getElem?_eq_some.mp hgi with ⟨hlt, _⟩
        rw [hinv1.2.2.1] at hlt
        exact hlt
      exact hns i hi p hgi h
    · exact Or.inl h
    · exact Or.inr h

/-- C3: if `n` callers enter `fetchSchema` concurrently before any schema has
been cached — every caller's entry segment runs before the single
introspection completion, under cooperative run-to-completion scheduling —
then exactly one upstream introspection request is issued, the waiters poll
until the in-flight fetch completes, and every caller ends with the same
snapshot the fetch produced (the schema on success, `Unavailable` on
failure). -/
theorem singleFlight_spec (ttl now n : Nat) (o : Option GqlSchema)
    (pre post : List SchedEvent) (hn : 0 < n)
    (hpre : ∀ e ∈ pre, e.isComplete = false)
    (hpost : ∀ e ∈ post, e.isComplete = false)
    (hentries : ∀ i, i < n → SchedEvent.entry i ∈ pre)
    (hpolls : ∀ i, i < n → SchedEvent.poll i ∈ post) :
    (runSched ttl now (initSys n) (pre ++ .complete o :: post)).requests = 1 ∧
    ∀ i, i < n →
      (runSched ttl now (initSys n)
        (pre ++ .complete o :: post)).threads[i]? = some (.done o) := by
  obtain ⟨hinv1, hip, hreq, hth⟩ := pre_phase ttl now n pre hn hpre hentries
  obtain ⟨hc1, hx1, hlen1, _⟩ := hinv1
  have hpost1 : PostInv n o
      (sysStep ttl now (runSched ttl now (initSys n) pre) (.complete o)) :=
    complete_establishes_post ttl now n o _ hc1 hlen1 hip hreq hth
  have hrw : runSched ttl now (initSys n) (pre ++ .complete o :: post)
      = runSched ttl now
          (sysStep ttl now (runSched ttl now (initSys n) pre) (.complete o))
          post := by
    rw [runSched_append]
    rfl
  constructor
  · rw [hrw]
    exact (postInv_run ttl now n o post _ hpost1 hpost).2.1
  · intro i hi
    rw [hrw]
    rcases List.append_of_mem (hpolls i hi) with ⟨p1, p2, hps⟩
    rw [hps, runSched_append]
    have hpostp1 := postInv_run ttl now n o p1 _ hpost1
      (fun e he => hpost e (by rw [hps]; simp [he]))
    have hdone := poll_makes_done ttl now n o _ i hpostp1 hi
    exact run_done_stable ttl now p2 _ i o
      (fun e he => hpost e (by rw [hps]; simp [he])) hdone

/-- Witness for C3: two callers enter before the fetch completes with a
concrete schema and poll afterwards; one request is issued and both end with
the same snapshot. -/
theorem singleFlight_spec_witness :
    (runSched 3600000 0 (initSys 2)
      ([.entry 0, .entry 1] ++
        .complete (some fixBoolSchema) :: [.poll 0, .poll 1])).requests = 1 ∧
    (runSched 3600000 0 (initSys 2)
      ([.entry 0, .entry 1] ++
        .complete (some fixBoolSchema) :: [.poll 0, .poll 1])).threads[0]?
      = some (.done (some fixBoolSchema)) := by
  have h := singleFlight_spec 3600000 0 2 (some fixBoolSchema)
    [.entry 0, .entry 1] [.poll 0, .poll 1]
    (by decide) (by decide) (by decide) (by decide) (by decide)
  exact ⟨h.1, h.2 0 (by decide)⟩

/-- Counterexample to C5 as stated: with an expired snapshot in the cache
(expiry 5, `now = 10`), caller 0 starts a refetch, caller 1 arrives while it
is in flight and polls, and the introspection fails (`complete none`).  The
fetching caller correctly receives `Unavailable` (`done none`), but the
waiting caller is returned `schemaCache` with no expiry check and ends with
the stale expired snapshot — the previous snapshot *is* served to a caller,
refuting the claim's final clause. -/
theorem fetchFailure_counterexample :
    (runSched 3600000 10 fixStaleSys
      [.entry 0, .entry 1, .complete none, .poll 1]).threads[0]?
        = some (.done none) ∧
    (runSched 3600000 10 fixStaleSys
      [.entry 0, .entry 1, .complete none, .poll 1]).threads[1]?
        = some (.done (some fixBoolSchema)) := by
  constructor
  · decide
  · decide

/-- C5 amended: when the introspection fetch fails, `fetchSchema` neither
updates the cached snapshot nor its expiry, returns `Unavailable` (`null`),
and the previous — necessarily non-live — snapshot left in place is not
served as valid to any caller that invokes the fetch after the failure: every
later call misses the cache and returns exactly its own fetch outcome.  A
caller already waiting on the failing fetch is the exception: its poll loop
returns `schemaCache` with no expiry check, so such a waiter is handed
whatever the cache holds (the final conjunct, in the concurrent model). -/
theorem fetchFailure_spec (ttl : Nat) (st : CacheState) (now : Nat)
    (hip : st.inProgress = false)
    (hmiss : cacheLiveAt st.cache st.expiry now = false) :
    (fetchSchemaStep ttl st now none).2 = none ∧
    (fetchSchemaStep ttl st now none).1.cache = st.cache ∧
    (fetchSchemaStep ttl st now none).1.expiry = st.expiry ∧
    (∀ now', now ≤ now' →
      cacheLiveAt (fetchSchemaStep ttl st now none).1.cache
        (fetchSchemaStep ttl st now none).1.expiry now' = false) ∧
    (∀ now' outcome', now ≤ now' →
      (fetchSchemaStep ttl ((fetchSchemaStep ttl st now none).1) now'
        outcome').2 = outcome') ∧
    (∀ (sys : SysState) (now' i : Nat), sys.inProgress = false →
      sys.threads[i]? = some .polling →
      (sysStep ttl now' sys (.poll i)).threads[i]? =
        some (.done sys.cache)) := by
  have hstep : fetchSchemaStep ttl st now none =
      ({ st with inProgress := false }, none) := by
    simp [fetchSchemaStep, hip, hmiss]
  refine ⟨by rw [hstep], by rw [hstep], by rw [hstep], ?_, ?_, ?_⟩
  · intro now' hle
    rw [hstep]
    exact cacheLiveAt_mono_false _ _ now now' hmiss hle
  · intro now' outcome' hle
    rw [hstep]
    have hmiss' : cacheLiveAt st.cache st.expiry now' = false :=
      cacheLiveAt_mono_false _ _ now now' hmiss hle
    simp only [fetchSchemaStep]
    rw [if_neg (by simp), if_neg (by simp [hmiss'])]
    cases outcome' <;> rfl
  · intro sys now' i hip' hpol
    rw [sysStep_poll_polling ttl now' sys i hpol]
    rw [if_neg (by simp [hip'])]
    have hlt : i < sys.threads.length :=
      (List.getElem?_eq_some.mp hpol).1
    exact List.getElem?_set_self hlt

/-- Witness for C5 at a concrete expired cache state and `now = 10`. -/
theorem fetchFailure_spec_witness :
    (fetchSchemaStep 3600000 fixStaleState 10 none).2 = none :=
  (fetchFailure_spec 3600000 fixStaleState 10 (by decide) (by decide)).1

end GraphQLMCP
